import Mathlib

/-!
Verification of the kibo-tasks core: the task-line parser, the
column-assignment policy, and the line-mutation engine.

Modelling conventions.  JavaScript strings are modelled as `List Char`
(one entry per Unicode code point; the source only ever compares
positions, so UTF-16 vs code-point indexing is observationally equal
for every operation modelled here).  Each regular-expression based
`String.replace` of the source is modelled by a dedicated structurally
recursive function whose semantics is the leftmost-match/global-match
semantics of the concrete pattern it implements; the pattern is quoted
in the doc comment of each function.
-/

namespace Kibo

/-- JS strings are lists of code points. -/
abbrev Str := List Char

/-- The whitespace class of JavaScript regexes (`\s`) and of
`String.prototype.trim`/`trimEnd`. -/
def isJsWs (c : Char) : Bool :=
  c.toNat = 0x20 || c.toNat = 0x09 || c.toNat = 0x0A || c.toNat = 0x0B ||
  c.toNat = 0x0C || c.toNat = 0x0D || c.toNat = 0xA0 || c.toNat = 0x1680 ||
  (0x2000 ≤ c.toNat && c.toNat ≤ 0x200A) ||
  c.toNat = 0x2028 || c.toNat = 0x2029 || c.toNat = 0x202F ||
  c.toNat = 0x205F || c.toNat = 0x3000 || c.toNat = 0xFEFF

/-- Line terminators, the characters NOT matched by `.` in a JS regex
without the `s` flag. -/
def isLineTerm (c : Char) : Bool :=
  c.toNat = 0x0A || c.toNat = 0x0D || c.toNat = 0x2028 || c.toNat = 0x2029

/-- ASCII digit, the `\d` class. -/
def isDigitCh (c : Char) : Bool :=
  0x30 ≤ c.toNat && c.toNat ≤ 0x39

/-- The `\w` class: `[A-Za-z0-9_]`. -/
def isWordCh (c : Char) : Bool :=
  (0x61 ≤ c.toNat && c.toNat ≤ 0x7A) || (0x41 ≤ c.toNat && c.toNat ≤ 0x5A) ||
  isDigitCh c || c.toNat = 0x5F

/-- Characters allowed in a tag after `#` by the parser's tag pattern
`#[\w-]+` (src/src/task-parser.ts line 42). -/
def isTagCh (c : Char) : Bool :=
  isWordCh c || c.toNat = 0x2D

/-! Emoji constants from `src/src/types.ts` (the `EMOJI` table and the
priority emoji). Each is a single code point. -/

/-- Due-date marker (EMOJI.DUE). -/
def emDue : Char := '📅'

/-- Done-date marker (EMOJI.DONE). -/
def emDone : Char := '✅'

/-- Created-date marker (EMOJI.CREATED). -/
def emCreated : Char := '➕'

/-- Scheduled-date marker (EMOJI.SCHEDULED). -/
def emScheduled : Char := '⏳'

/-- Start-date marker (EMOJI.START). -/
def emStart : Char := '🛫'

/-- Cancelled-date marker (EMOJI.CANCELLED). -/
def emCancelled : Char := '❌'

/-- Recurrence marker (EMOJI.RECURRENCE). -/
def emRecurrence : Char := '🔁'

/-- Priority marker for `highest` (first entry of PRIORITY_EMOJI_MAP). -/
def emHighest : Char := '🔺'

/-- Priority marker for `high`. -/
def emHigh : Char := '⏫'

/-- Priority marker for `medium`. -/
def emMedium : Char := '🔼'

/-- Priority marker for `low`. -/
def emLow : Char := '🔽'

/-- The four priority marker characters. -/
def priorityChars : List Char := [emHighest, emHigh, emMedium, emLow]

/-- The six date-marker characters, in the order of the `emojiChars`
array of `cleanDescription` (src/src/utils/emoji-parser.ts lines 88-91). -/
def dateEmojiChars : List Char :=
  [emDue, emDone, emCreated, emScheduled, emStart, emCancelled]

/-! Generic text utilities shared by the mutation engine and the
parser, each modelling one concrete JS string operation. -/

/-- JS `String.prototype.trimEnd`: remove trailing whitespace. -/
def trimEndJs (l : Str) : Str :=
  (l.reverse.dropWhile isJsWs).reverse

/-- JS `String.prototype.trim`: remove leading and trailing whitespace. -/
def trimJs (l : Str) : Str :=
  trimEndJs (l.dropWhile isJsWs)

/-- Does `t` occur as a contiguous substring of `l`?  Models JS
`String.prototype.includes`. -/
def strIncl (t : Str) : Str → Bool
  | [] => t.isPrefixOf []
  | l@(_ :: rest) => t.isPrefixOf l || strIncl t rest

/-- Number of positions of `l` at which `t` occurs as a contiguous
substring (overlapping occurrences counted). -/
def countOccur (t : Str) : Str → Nat
  | [] => if t.isPrefixOf [] then 1 else 0
  | l@(_ :: rest) => (if t.isPrefixOf l then 1 else 0) + countOccur t rest

/-- `replace(/\s+/g, ' ')`: every maximal whitespace run becomes one
space.  (The single space is emitted at the end of the run.) -/
def collapseWs : Str → Str
  | [] => []
  | a :: rest =>
    if isJsWs a then
      match rest with
      | b :: _ => if isJsWs b then collapseWs rest else ' ' :: collapseWs rest
      | [] => [' ']
    else a :: collapseWs rest

/-- Helper for `collapseWs2`: when the flag is set we are inside a
whitespace run whose single replacement space has already been emitted. -/
def collapseWs2Go : Bool → Str → Str
  | _, [] => []
  | true, a :: rest =>
    if isJsWs a then collapseWs2Go true rest else a :: collapseWs2Go false rest
  | false, a :: rest =>
    match rest with
    | b :: _ =>
      if isJsWs a && isJsWs b then ' ' :: collapseWs2Go true rest
      else a :: collapseWs2Go false rest
    | [] => [a]

/-- `replace(/\s{2,}/g, ' ')`: whitespace runs of length at least two
become one space; an isolated whitespace character is kept verbatim. -/
def collapseWs2 (l : Str) : Str :=
  collapseWs2Go false l

/-- `replace(/ $/, '')`: drop one trailing literal space. -/
def dropTrailSp (l : Str) : Str :=
  match l.getLast? with
  | some c => if c = ' ' then l.dropLast else l
  | none => l

/-- Scanner for `stripTagAll`.  `skip` counts characters still to be
consumed (without being emitted) from a match found earlier. -/
def stripTagGo (t : Str) : Nat → Str → Str
  | _, [] => []
  | Nat.succ k, _ :: rest => stripTagGo t k rest
  | 0, c :: rest =>
    let w := (c :: rest).takeWhile isJsWs
    let r := (c :: rest).drop w.length
    if t.isPrefixOf r then stripTagGo t (w.length + t.length - 1) rest
    else c :: stripTagGo t 0 rest

/-- `replace(new RegExp('\\s*' + escapeRegex(tag), 'g'), '')`: remove
every occurrence of `tag` together with the maximal whitespace run
immediately before it.  The model assumes the tag is nonempty and does
not start with whitespace (true of every column tag `#...`), so the
greedy `\s*` never backtracks. -/
def stripTagAll (t : Str) (l : Str) : Str :=
  stripTagGo t 0 l

/-- Is `dddd-dd-dd` (4 digits, dash, 2 digits, dash, 2 digits) a prefix
of `l`?  This is the `\d{4}-\d{2}-\d{2}` pattern, which matches at a
position regardless of what follows. -/
def dateHead : Str → Bool
  | a :: b :: c :: d :: h1 :: e :: f :: h2 :: g :: h :: _ =>
    isDigitCh a && isDigitCh b && isDigitCh c && isDigitCh d &&
    h1 = '-' && isDigitCh e && isDigitCh f && h2 = '-' &&
    isDigitCh g && isDigitCh h
  | _ => false

/-- Exactly a `dddd-dd-dd` date and nothing else. -/
def dateShape (l : Str) : Bool :=
  dateHead l && l.length = 10

/-- Scanner for `stripDateMarkerAll`: remove every occurrence of
`\s*E\s+\d{4}-\d{2}-\d{2}` for the marker character `E`. -/
def stripDateMarkerGo (e : Char) : Nat → Str → Str
  | _, [] => []
  | Nat.succ k, _ :: rest => stripDateMarkerGo e k rest
  | 0, c :: rest =>
    let w := (c :: rest).takeWhile isJsWs
    let r := (c :: rest).drop w.length
    match r with
    | x :: r1 =>
      if x = e then
        let w2 := r1.takeWhile isJsWs
        let r2 := r1.drop w2.length
        if w2.length ≠ 0 && dateHead r2 then
          stripDateMarkerGo e (w.length + 1 + w2.length + 10 - 1) rest
        else c :: stripDateMarkerGo e 0 rest
      else c :: stripDateMarkerGo e 0 rest
    | [] => c :: stripDateMarkerGo e 0 rest

/-- `replace(new RegExp('\\s*' + E + '\\s+\\d{4}-\\d{2}-\\d{2}', 'gu'), '')`:
remove every marker-plus-date token together with the whitespace run
before the marker. -/
def stripDateMarkerAll (e : Char) (l : Str) : Str :=
  stripDateMarkerGo e 0 l

/-- Does the 5-character checkbox pattern `- [m]` with `m ∈ { ' ', '/', '!' }`
(the regex `- \[[ \/!]\]` of `completeTask`) match at the head of `l`? -/
def checkboxHeadDone : Str → Bool
  | '-' :: ' ' :: '[' :: m :: ']' :: _ => m = ' ' || m = '/' || m = '!'
  | _ => false

/-- Models `line.replace(RE, '- [x]')` where RE is the pattern
`- \[[ \/!]\]` (no global flag): rewrite the FIRST occurrence of an
incomplete/in-progress/important checkbox to `- [x]`. -/
def replaceFirstCheckbox : Str → Str
  | [] => []
  | l@(c :: rest) =>
    if checkboxHeadDone l then "- [x]".data ++ l.drop 5
    else c :: replaceFirstCheckbox rest

/-- `replace('- [x]', '- [ ]')`: JS `String.replace` with a string
pattern rewrites only the first occurrence. -/
def replaceFirstXbox : Str → Str
  | [] => []
  | l@(c :: rest) =>
    if ("- [x]".data).isPrefixOf l then "- [ ]".data ++ l.drop 5
    else c :: replaceFirstXbox rest

/-! The metadata extractor, `src/src/utils/emoji-parser.ts`. -/

/-- Task priorities (`src/src/types.ts`). -/
inductive Priority
  | highest
  | high
  | medium
  | low
  | none
deriving DecidableEq

/-- Model of one `line.match(new RegExp(E + '\\s+(\\d{4}-\\d{2}-\\d{2})'))`
call of `parseEmojiMetadata`: the capture of the leftmost occurrence of
marker `e` followed by at least one whitespace character and a
`\d{4}-\d{2}-\d{2}` group, or `none` when the pattern does not occur. -/
def findEmojiDate (e : Char) : Str → Option Str
  | [] => Option.none
  | c :: rest =>
    if c = e then
      let w := rest.takeWhile isJsWs
      let r := rest.drop w.length
      if w.length ≠ 0 && dateHead r then some (r.take 10)
      else findEmojiDate e rest
    else findEmojiDate e rest

/-- The priority scan of `parseEmojiMetadata` (lines 54-60): walk
`PRIORITY_EMOJI_MAP` in entry order and return on the first marker that
occurs anywhere in the line (`line.includes(emoji)`). -/
def parsePriority (l : Str) : Priority :=
  if l.contains emHighest then Priority.highest
  else if l.contains emHigh then Priority.high
  else if l.contains emMedium then Priority.medium
  else if l.contains emLow then Priority.low
  else Priority.none

/-- Termination test of the recurrence capture: the remainder matches
the regex alternative `(?:\s*$|\s+[dateEmoji])`. -/
def recTermOk (r : Str) : Bool :=
  (r.dropWhile isJsWs).isEmpty ||
  (let w := r.takeWhile isJsWs
   match r.drop w.length with
   | x :: _ => w.length ≠ 0 && dateEmojiChars.contains x
   | [] => false)

/-- Attempt the recurrence pattern right after a `🔁`: greedy `\s+`
(longest whitespace first), then the lazy capture `[^dateEmoji]+?`
(shortest first) that leaves a remainder accepted by `recTermOk`. -/
def recCaptureAt (after : Str) : Option Str :=
  let wmax := (after.takeWhile isJsWs).length
  (List.range wmax).findSome? (fun i =>
    let w := wmax - i
    let body := after.drop w
    (List.range body.length).findSome? (fun j =>
      let cap := body.take (j + 1)
      if cap.all (fun c => !(dateEmojiChars.contains c)) &&
         recTermOk (body.drop (j + 1))
      then some cap else Option.none))

/-- The recurrence `line.match` of `parseEmojiMetadata` line 63: leftmost
`🔁` at which the rest of the pattern succeeds. -/
def findRecurrence : Str → Option Str
  | [] => Option.none
  | c :: rest =>
    if c = emRecurrence then
      match recCaptureAt rest with
      | some cap => some cap
      | Option.none => findRecurrence rest
    else findRecurrence rest

/-- Result record of `parseEmojiMetadata` (interface ParsedEmojis). -/
structure ParsedEmojis where
  dueDate : Option Str
  doneDate : Option Str
  createdDate : Option Str
  scheduledDate : Option Str
  startDate : Option Str
  cancelledDate : Option Str
  priority : Priority
  recurrence : Option Str
deriving DecidableEq

/-- `parseEmojiMetadata` (src/src/utils/emoji-parser.ts lines 18-67). -/
def parseEmojiMetadata (line : Str) : ParsedEmojis :=
  { dueDate := findEmojiDate emDue line
    doneDate := findEmojiDate emDone line
    createdDate := findEmojiDate emCreated line
    scheduledDate := findEmojiDate emScheduled line
    startDate := findEmojiDate emStart line
    cancelledDate := findEmojiDate emCancelled line
    priority := parsePriority line
    recurrence := (findRecurrence line).map trimJs }

/-- Scanner for `replaceTagSpAll`: global replacement of
`\s*TAG\s*` by a single space, used for the global filter tag and the
column tags in `cleanDescription`.  Assumes `t` is nonempty (true of
every filter/column tag the plugin stores). -/
def replTagSpGo (t : Str) : Nat → Str → Str
  | _, [] => []
  | Nat.succ k, _ :: rest => replTagSpGo t k rest
  | 0, c :: rest =>
    let w := (c :: rest).takeWhile isJsWs
    let r := (c :: rest).drop w.length
    if t.isPrefixOf r then
      let r2 := r.drop t.length
      let w2 := r2.takeWhile isJsWs
      match w.length + t.length + w2.length with
      | 0 => ' ' :: c :: replTagSpGo t 0 rest
      | Nat.succ k2 => ' ' :: replTagSpGo t k2 rest
    else c :: replTagSpGo t 0 rest

/-- `replace(new RegExp('\\s*' + escapeRegex(tag) + '\\s*', 'g'), ' ')`
(cleanDescription lines 80 and 84). -/
def replTagSpAll (t : Str) (l : Str) : Str :=
  replTagSpGo t 0 l

/-- Scanner for `stripRecAll`: global removal of `\s*🔁\s+[^\s]+`. -/
def stripRecGo : Nat → Str → Str
  | _, [] => []
  | Nat.succ k, _ :: rest => stripRecGo k rest
  | 0, c :: rest =>
    let w := (c :: rest).takeWhile isJsWs
    let r := (c :: rest).drop w.length
    match r with
    | x :: r1 =>
      if x = emRecurrence then
        let w2 := r1.takeWhile isJsWs
        let r2 := r1.drop w2.length
        let nw := r2.takeWhile (fun ch => !(isJsWs ch))
        if w2.length ≠ 0 && nw.length ≠ 0 then
          match w.length + 1 + w2.length + nw.length with
          | 0 => c :: stripRecGo 0 rest
          | Nat.succ k2 => stripRecGo k2 rest
        else c :: stripRecGo 0 rest
      else c :: stripRecGo 0 rest
    | [] => c :: stripRecGo 0 rest

/-- `replace(new RegExp('\\s*' + EMOJI.RECURRENCE + '\\s+[^\\s]+', 'gu'), '')`
(cleanDescription line 97). -/
def stripRecAll (l : Str) : Str :=
  stripRecGo 0 l

/-- `cleanDescription` (src/src/utils/emoji-parser.ts lines 72-106). -/
def cleanDescription (rawText : Str) (globalFilter : Str)
    (columnTags : List Str) : Str :=
  let t1 := replTagSpAll globalFilter rawText
  let t2 := columnTags.foldl (fun acc tg => replTagSpAll tg acc) t1
  let t3 := dateEmojiChars.foldl (fun acc e => stripDateMarkerAll e acc) t2
  let t4 := stripRecAll t3
  let t5 := t4.filter (fun c => !(priorityChars.contains c))
  trimJs (collapseWs t5)

/-! The data model, `src/src/types.ts` and the constants of the same
file. -/

/-- Column kinds (`ColumnType`). -/
inductive ColumnType
  | todo
  | backlog
  | tag
  | done
deriving DecidableEq

/-- The two to-do filter modes (`TodoFilterMode`). -/
inductive TodoFilterMode
  | dueToday
  | allUndone
deriving DecidableEq

/-- One board column (`interface ColumnConfig`).  `limit` is the
optional cap on visible items of a done column. -/
structure ColumnConfig where
  id : Str
  label : Str
  tag : Option Str
  type : ColumnType
  color : Str
  collapsed : Bool
  limit : Option Nat := Option.none
deriving DecidableEq

/-- One captured subtask (`interface SubTask`). -/
structure SubTask where
  rawLine : Str
  description : Str
  status : Char
  lineNumber : Nat
deriving DecidableEq

/-- One parsed task (`interface KiboTask`). -/
structure KiboTask where
  id : Str
  filePath : Str
  lineNumber : Nat
  rawLine : Str
  description : Str
  status : Char
  dueDate : Option Str
  doneDate : Option Str
  priority : Priority
  tags : List Str
  columnTags : List Str
  sourceFileName : Str
  subtasks : List SubTask
  pageTags : List Str
deriving DecidableEq

/-- Plugin settings (`interface KiboTasksSettings`). -/
structure KiboTasksSettings where
  columns : List ColumnConfig
  excludedFolders : List Str
  todoFilter : TodoFilterMode
  globalFilter : Str
  doneLimit : Nat
deriving DecidableEq

/-- `DEFAULT_COLUMNS` of src/src/types.ts. -/
def DEFAULT_COLUMNS : List ColumnConfig :=
  [ { id := "backlog".data, label := "Backlog".data, tag := Option.none,
      type := ColumnType.backlog, color := "#6B7280".data, collapsed := true },
    { id := "todo".data, label := "To Do".data, tag := Option.none,
      type := ColumnType.todo, color := "#6B7280".data, collapsed := false },
    { id := "in-progress".data, label := "In Progress".data,
      tag := some "#in-progress".data, type := ColumnType.tag,
      color := "#F59E0B".data, collapsed := false },
    { id := "done".data, label := "Done".data, tag := Option.none,
      type := ColumnType.done, color := "#10B981".data, collapsed := false,
      limit := some 10 } ]

/-- `DEFAULT_SETTINGS` of src/src/types.ts. -/
def DEFAULT_SETTINGS : KiboTasksSettings :=
  { columns := DEFAULT_COLUMNS
    excludedFolders :=
      [".trash".data, ".stversions".data, ".claude".data, ".roo".data,
       "Templates".data]
    todoFilter := TodoFilterMode.dueToday
    globalFilter := "#task".data
    doneLimit := 10 }

/-! The task-line parser, `src/unnamed/part_001` (the variant of
`parseTasksFromContent` with subtask capture, matching the `KiboTask`
interface of types.ts; `src/src/task-parser.ts` is an earlier identical
parser without the subtask walk). -/

/-- The five status characters of `TASK_LINE_REGEX`'s class `[ x\/\-!]`. -/
def statusChars : List Char := [' ', 'x', '/', '-', '!']

/-- Model of `line.match(TASK_LINE_REGEX)` with
`TASK_LINE_REGEX = ^(\s*)- \[([ x\/\-!])\]\s+(.+)$`.
Returns the three captures (indent, status char, raw text).  The greedy
`\s*` takes the maximal leading whitespace run (backtracking cannot
help: the next character must be `-`, which is not whitespace); `\s+`
then takes the maximal run after `]`, giving back at most its last
character to `.+` when nothing else remains; `.` refuses line
terminators, and `$` is end of string. -/
def matchTaskLine (l : Str) : Option (Str × Char × Str) :=
  let ind := l.takeWhile isJsWs
  match l.drop ind.length with
  | '-' :: ' ' :: '[' :: m :: ']' :: rest =>
    if statusChars.contains m then
      let w := rest.takeWhile isJsWs
      let t := rest.drop w.length
      if w.length ≠ 0 && t.length ≠ 0 && t.all (fun c => !(isLineTerm c)) then
        some (ind, m, t)
      else
        match t, w.getLast? with
        | [], some lc =>
          if w.length ≥ 2 && !(isLineTerm lc) then some (ind, m, [lc])
          else Option.none
        | _, _ => Option.none
    else Option.none
  | _ => Option.none

/-- Scanner for `extractTags`: the `tagRegex.exec` loop with
`tagRegex = /#[\w-]+/g`; after a match the scan resumes past it. -/
def extractTagsGo : Nat → Str → List Str
  | _, [] => []
  | Nat.succ k, _ :: rest => extractTagsGo k rest
  | 0, c :: rest =>
    if c = '#' then
      let run := rest.takeWhile isTagCh
      if run.length ≠ 0 then ('#' :: run) :: extractTagsGo run.length rest
      else extractTagsGo 0 rest
    else extractTagsGo 0 rest

/-- All matches of `/#[\w-]+/g` over `l`, in text order. -/
def extractTags (l : Str) : List Str :=
  extractTagsGo 0 l

/-- Keep the first occurrence of each element, in order: the contents
of a JS `Set` built by insertion. -/
def dedupFirstGo (seen : List Str) : List Str → List Str
  | [] => []
  | a :: rest =>
    if seen.contains a then dedupFirstGo seen rest
    else a :: dedupFirstGo (a :: seen) rest

/-- `columnTagSet` of `parseTasksFromContent`: the tags of the columns
whose `tag` is not null, as a JS `Set` (insertion order, deduplicated). -/
def columnTagList (columns : List ColumnConfig) : List Str :=
  dedupFirstGo [] (columns.filterMap (fun c => c.tag))

/-- Split the tags of a raw text into (other tags, matched column tags),
keeping text order: the `while ((tagMatch = tagRegex.exec(rawText)))`
loop of the parser. -/
def splitTags (rawText : Str) (globalFilter : Str)
    (ctags : List Str) : List Str × List Str :=
  (extractTags rawText).foldl
    (fun acc tg =>
      if tg = globalFilter then acc
      else if ctags.contains tg then (acc.1, acc.2 ++ [tg])
      else (acc.1 ++ [tg], acc.2))
    ([], [])

/-- `filePath.split('/').pop() || filePath`, then `.replace(/\.md$/, '')`
(an empty last segment is falsy, so the whole path is used instead). -/
def sourceFileNameOf (filePath : Str) : Str :=
  let seg :=
    match (List.splitOn '/' filePath).getLast? with
    | some last => if last.isEmpty then filePath else last
    | Option.none => filePath
  if (".md".data).isSuffixOf seg then seg.take (seg.length - 3) else seg

/-- The subtask walk of `parseTasksFromContent` (part_001 lines 64-87):
starting right after the parent line, indented checklist lines are
captured, blank lines and indented non-checklist lines are stepped
over, and the walk stops at the first top-level checklist line or
top-level non-blank content.  `j` is the absolute line number of the
first list element. -/
def collectSubs (globalFilter : Str) (ctags : List Str) :
    Nat → List Str → List SubTask
  | _, [] => []
  | j, subLine :: rest =>
    match matchTaskLine subLine with
    | Option.none =>
      if (trimJs subLine).isEmpty then collectSubs globalFilter ctags (j + 1) rest
      else
        match subLine with
        | x :: _ =>
          if isJsWs x then collectSubs globalFilter ctags (j + 1) rest
          else []
        | [] => []
    | some (subIndent, subStatus, subRawText) =>
      if subIndent.length = 0 then []
      else
        { rawLine := subLine
          description := cleanDescription subRawText globalFilter ctags
          status := subStatus
          lineNumber := j } :: collectSubs globalFilter ctags (j + 1) rest

/-- The main line loop of `parseTasksFromContent`; `i` is the absolute
line number of the first list element. -/
def goLines (filePath : Str) (globalFilter : Str) (ctags : List Str) :
    Nat → List Str → List KiboTask
  | _, [] => []
  | i, line :: rest =>
    match matchTaskLine line with
    | Option.none => goLines filePath globalFilter ctags (i + 1) rest
    | some (ind, statusChar, rawText) =>
      if ind.length ≠ 0 then goLines filePath globalFilter ctags (i + 1) rest
      else if !(strIncl globalFilter line) then
        goLines filePath globalFilter ctags (i + 1) rest
      else
        let emojis := parseEmojiMetadata rawText
        let tags2 := splitTags rawText globalFilter ctags
        { id := filePath ++ "::".data ++ (Nat.repr i).data
          filePath := filePath
          lineNumber := i
          rawLine := line
          description := cleanDescription rawText globalFilter ctags
          status := statusChar
          dueDate := emojis.dueDate
          doneDate := emojis.doneDate
          priority := emojis.priority
          tags := tags2.1
          columnTags := tags2.2
          sourceFileName := sourceFileNameOf filePath
          subtasks := collectSubs globalFilter ctags (i + 1) rest
          pageTags := [] } :: goLines filePath globalFilter ctags (i + 1) rest

/-- `parseTasksFromContent` (src/unnamed/part_001 lines 9-108). -/
def parseTasksFromContent (content : Str) (filePath : Str)
    (globalFilter : Str) (columns : List ColumnConfig) : List KiboTask :=
  goLines filePath globalFilter (columnTagList columns) 0
    (List.splitOn '\n' content)

/-! The column-assignment policy, `assignColumn`
(src/src/task-parser.ts lines 85-117 and part_001 lines 113-145,
identical). -/

/-- Truthiness of an optional JS string: `null` and the empty string
are falsy. -/
def strFalsy : Option Str → Bool
  | Option.none => true
  | some s => s.isEmpty

/-- First column of a given type (`columns.find(c => c.type === ty)`). -/
def findType (columns : List ColumnConfig) (ty : ColumnType) :
    Option ColumnConfig :=
  columns.find? (fun c => c.type == ty)

/-- `assignColumn`: the column id a task is bucketed under. -/
def assignColumn (task : KiboTask) (columns : List ColumnConfig) : Str :=
  if task.status = 'x' then
    match findType columns ColumnType.done with
    | some c => c.id
    | Option.none => "done".data
  else if task.status = '-' then
    match findType columns ColumnType.done with
    | some c => c.id
    | Option.none => "done".data
  else
    match columns.find? (fun c =>
        c.type == ColumnType.tag &&
        (match c.tag with
         | some t => !t.isEmpty && task.columnTags.contains t
         | Option.none => false)) with
    | some c => c.id
    | Option.none =>
      match (if strFalsy task.dueDate then findType columns ColumnType.backlog
             else Option.none) with
      | some c => c.id
      | Option.none =>
        match findType columns ColumnType.todo with
        | some c => c.id
        | Option.none => "todo".data

/-- The assignment policy exactly as the specification states it
(spec section 4.3, claim C1): (1) done or cancelled status goes to the
done-type column or the literal "done"; (2) otherwise the first
tag-type column, in configuration order, whose tag occurs in the
task's columnTags; (3) otherwise, with no due date and an existing
backlog-type column, that backlog column; (4) otherwise the todo-type
column or the literal "todo". -/
def assignColumnSpec (task : KiboTask) (columns : List ColumnConfig) : Str :=
  if task.status = 'x' ∨ task.status = '-' then
    match findType columns ColumnType.done with
    | some c => c.id
    | Option.none => "done".data
  else
    match columns.find? (fun c =>
        c.type == ColumnType.tag &&
        (match c.tag with
         | some t => task.columnTags.contains t
         | Option.none => false)) with
    | some c => c.id
    | Option.none =>
      if task.dueDate = Option.none ∧
          (findType columns ColumnType.backlog).isSome then
        match findType columns ColumnType.backlog with
        | some c => c.id
        | Option.none => "todo".data
      else
        match findType columns ColumnType.todo with
        | some c => c.id
        | Option.none => "todo".data

/-! The line-mutation engine, `TaskWriter`
(src/src/utils/emoji-parser.ts part two, lines 119-280).  Every
operation is the pure line transform passed to `modifyLine`; the file
I/O wrapper around it is outside the model.  `today` stands for the
value of `todayStr()`. -/

/-- The emoji scan list of `TaskWriter.insertTag` (lines 232-236): the
seven metadata markers followed by the four priority markers. -/
def insertTagEmojiChars : List Char :=
  dateEmojiChars ++ [emRecurrence] ++ priorityChars

/-- `TaskWriter.insertTag` (lines 230-255): place the tag before the
first emoji metadata character, or at the trimmed end of the line.
The minimum of the `indexOf` results over the emoji list is the first
position whose character is in the list. -/
def insertTagLine (l : Str) (tag : Str) : Str :=
  let before := l.takeWhile (fun c => !(insertTagEmojiChars.contains c))
  let after := l.drop before.length
  if after.length ≠ 0 then
    trimEndJs before ++ ' ' :: (tag ++ ' ' :: after)
  else
    trimEndJs l ++ ' ' :: tag

/-- The line transform of `TaskWriter.addTag` (lines 130-135): a no-op
when the tag already occurs in the line, otherwise `insertTag`. -/
def addTagLine (l : Str) (tag : Str) : Str :=
  if strIncl tag l then l else insertTagLine l tag

/-- The line transform of `TaskWriter.removeTag` (lines 140-145). -/
def removeTagLine (l : Str) (tag : Str) : Str :=
  dropTrailSp (collapseWs (stripTagAll tag l))

/-- The final `replace(RE2, '$1 ')` of `completeTask` line 166, where
RE2 is the anchored pattern `^(\s*- \[x\]) `: the replacement emits
the capture followed by one space, which is exactly the matched text,
so the operation reconstructs the match unchanged. -/
def fixHeadSpacing (l : Str) : Str :=
  let ind := l.takeWhile isJsWs
  match l.drop ind.length with
  | '-' :: ' ' :: '[' :: 'x' :: ']' :: ' ' :: rest =>
    ind ++ "- [x] ".data ++ rest
  | _ => l

/-- The line transform of `TaskWriter.completeTask` (lines 150-168):
rewrite the first `- [m]` with `m ∈ { ' ', '/', '!' }` to `- [x]`,
strip every supplied column tag, append `✅ today` unless a `✅` is
already present (`includes(EMOJI.DONE)` is a one-character test), then
collapse whitespace. -/
def completeTaskLine (today : Str) (columnTags : List Str) (l : Str) : Str :=
  let r1 := replaceFirstCheckbox l
  let r2 := columnTags.foldl (fun acc tg => stripTagAll tg acc) r1
  let r3 :=
    if r2.contains emDone then r2
    else trimEndJs r2 ++ ' ' :: emDone :: ' ' :: today
  fixHeadSpacing (collapseWs r3)

/-- The line transform of `TaskWriter.uncompleteTask` (lines 173-183):
rewrite the first `- [x]` to `- [ ]`, remove every `✅ date` token,
collapse whitespace, drop one trailing space. -/
def uncompleteTaskLine (l : Str) : Str :=
  dropTrailSp (collapseWs (stripDateMarkerAll emDone (replaceFirstXbox l)))

/-- The line transform of `TaskWriter.moveToColumn` (lines 188-223).
`status` is the task's current status character.  For a done target
the operation is exactly `completeTask` (the `.filter(t => t !== null)`
on a `string[]` keeps every element).  Otherwise: uncomplete inline if
the task was done, strip every truthy column tag, and for a tag target
with a truthy tag insert it; finally collapse 2+ whitespace runs and
drop one trailing space. -/
def moveToColumnLine (today : Str) (status : Char)
    (targetColumnTag : Option Str) (targetColumnType : ColumnType)
    (allColumnTags : List Str) (l : Str) : Str :=
  if targetColumnType = ColumnType.done then
    completeTaskLine today allColumnTags l
  else
    let r1 :=
      if status = 'x' then stripDateMarkerAll emDone (replaceFirstXbox l)
      else l
    let r2 := allColumnTags.foldl
      (fun acc tg => if tg.isEmpty then acc else stripTagAll tg acc) r1
    let r3 :=
      match targetColumnType, targetColumnTag with
      | ColumnType.tag, some tg => if tg.isEmpty then r2 else insertTagLine r2 tg
      | _, _ => r2
    dropTrailSp (collapseWs2 r3)

/-! Date utilities (`src/unnamed/part_001` second half, date-utils) and
the sorting/bucketing of the store (`TaskStore.getTasksByColumn`,
src/src/board-renderer.ts lines 467-521 with the private helpers at
588-610).  `todayD` stands for the day number of today's local
midnight. -/

/-- Day number of a civil date (days since 1970-01-01), defined for
arbitrary integer month and day exactly as JS `new Date(y, m - 1, d)`
normalizes out-of-range values: month overflow rolls the year, and the
day is an offset from the first of the normalized month. -/
def daysFromCivil (y m d : Int) : Int :=
  let y0 := y + (m - 1).fdiv 12
  let m0 := (m - 1).emod 12 + 1
  let y2 := if m0 ≤ 2 then y0 - 1 else y0
  let era := y2.fdiv 400
  let yoe := y2 - era * 400
  let mp := (m0 + 9).emod 12
  let doy := (153 * mp + 2).fdiv 5 + 0
  let doe := yoe * 365 + yoe.fdiv 4 - yoe.fdiv 100 + doy
  era * 146097 + doe - 719468 + (d - 1)

/-- Numeric value of a digit string. -/
def digitsVal (l : Str) : Int :=
  l.foldl (fun acc c => acc * 10 + ((c.toNat : Int) - ('0'.toNat : Int))) 0

/-- `parseDate` (date-utils): anchored `^(\d{4})-(\d{2})-(\d{2})$`,
then `new Date(y, m - 1, d)`, returned as a day number. -/
def parseDateDays (s : Str) : Option Int :=
  if dateShape s then
    some (daysFromCivil (digitsVal (s.take 4))
      (digitsVal ((s.drop 5).take 2)) (digitsVal ((s.drop 8).take 2)))
  else Option.none

/-- `isDueOrOverdue` (date-utils): parse failure gives `false`. -/
def isDueOrOverdue (todayD : Int) (s : Str) : Bool :=
  match parseDateDays s with
  | some d => d ≤ todayD
  | Option.none => false

/-- `prioritySort`'s rank table (board-renderer line 608). -/
def prioRank : Priority → Nat
  | Priority.highest => 0
  | Priority.high => 1
  | Priority.medium => 2
  | Priority.low => 3
  | Priority.none => 4

/-- `prioritySort` comparator (board-renderer lines 607-610). -/
def prioCmp (a b : KiboTask) : Int :=
  (prioRank a.priority : Int) - (prioRank b.priority : Int)

/-- `todoGroup` (board-renderer lines 595-605): 0 overdue, 1 due today,
2 otherwise (no due date, malformed due date, or future). -/
def todoGroup (todayD : Int) (task : KiboTask) : Nat :=
  match task.dueDate with
  | Option.none => 2
  | some s =>
    if s.isEmpty then 2
    else
      match parseDateDays s with
      | Option.none => 2
      | some d => if d < todayD then 0 else if d = todayD then 1 else 2

/-- `todoSort` comparator (board-renderer lines 588-593). -/
def todoCmp (todayD : Int) (a b : KiboTask) : Int :=
  if todoGroup todayD a ≠ todoGroup todayD b then
    (todoGroup todayD a : Int) - (todoGroup todayD b : Int)
  else prioCmp a b

/-- Code-point lexicographic three-way comparison, the value of
`localeCompare` on the plugin's date strings (digits and dashes agree
between the default locale order and code-point order). -/
def lexCmp : Str → Str → Int
  | [], [] => 0
  | [], _ :: _ => -1
  | _ :: _, [] => 1
  | a :: as, b :: bs => if a = b then lexCmp as bs else if a < b then -1 else 1

/-- Truthiness of `task.doneDate` (`a.doneDate &&`): set and nonempty. -/
def hasDone (t : KiboTask) : Bool :=
  match t.doneDate with
  | some s => !s.isEmpty
  | Option.none => false

/-- The done-column comparator (board-renderer lines 503-508):
`b.doneDate.localeCompare(a.doneDate)` when both are truthy, tasks with
a done date first otherwise. -/
def doneCmp (a b : KiboTask) : Int :=
  if hasDone a && hasDone b then
    lexCmp (b.doneDate.getD []) (a.doneDate.getD [])
  else if hasDone a then -1
  else if hasDone b then 1
  else 0

/-- `Array.prototype.sort(cmp)`: a sort of the list such that adjacent
results satisfy `cmp x y ≤ 0`.  Insertion sort realizes the
ECMAScript contract (sorted, a permutation); none of the verified
claims depends on the order of comparator ties. -/
def sortByCmp (cmp : KiboTask → KiboTask → Int) (l : List KiboTask) :
    List KiboTask :=
  List.insertionSort (fun a b => cmp a b ≤ 0) l

/-- `rebuildAssignments` (board-renderer lines 567-573): a JS `Map`
from task id to assigned column id.  Later `set`s win for `get`, which
the model realizes by prepending and `List.lookup` (first hit). -/
def columnAssignments (columns : List ColumnConfig)
    (tasks : List KiboTask) : List (Str × Str) :=
  tasks.foldl (fun m t => (t.id, assignColumn t columns) :: m) []

/-- JS `Map.set` over an association list with unique keys: replace in
place, else append. -/
def setAssoc (k : Str) (v : List KiboTask) :
    List (Str × List KiboTask) → List (Str × List KiboTask)
  | [] => [(k, v)]
  | (k2, v2) :: rest =>
    if k2 = k then (k, v) :: rest else (k2, v2) :: setAssoc k v rest

/-- One iteration of the bucket-filling loop of `getTasksByColumn`
(lines 475-490): place task `t` at the end of its assigned column's
bucket, unless it is filtered out. -/
def fillStep (todayD : Int) (settings : KiboTasksSettings)
    (assigns : List (Str × Str)) (m : List (Str × List KiboTask))
    (t : KiboTask) : List (Str × List KiboTask) :=
  match List.lookup t.id assigns with
  | Option.none => m
  | some colId =>
    if colId.isEmpty then m
    else
      match settings.columns.find? (fun c => c.id == colId) with
      | Option.none => m
      | some col =>
        if col.type = ColumnType.todo ∧
            settings.todoFilter = TodoFilterMode.dueToday ∧
            (strFalsy t.dueDate ∨
             !(isDueOrOverdue todayD (t.dueDate.getD []))) then m
        else
          setAssoc colId ((List.lookup colId m).getD [] ++ [t]) m

/-- The bucket-filling loop of `getTasksByColumn` (lines 475-490). -/
def fillBuckets (todayD : Int) (settings : KiboTasksSettings)
    (assigns : List (Str × Str)) (tasks : List KiboTask)
    (m : List (Str × List KiboTask)) : List (Str × List KiboTask) :=
  tasks.foldl (fillStep todayD settings assigns) m

/-- The body of the per-column sorting and limiting loop of
`getTasksByColumn` (lines 492-518) for one map entry. -/
def sortEntry (todayD : Int) (settings : KiboTasksSettings)
    (colId : Str) (colTasks : List KiboTask) : List KiboTask :=
  match settings.columns.find? (fun c => c.id == colId) with
  | some col =>
    if col.type = ColumnType.todo then
      sortByCmp (todoCmp todayD) colTasks
    else if col.type = ColumnType.backlog then
      sortByCmp prioCmp colTasks
    else if col.type = ColumnType.done then
      let sorted := sortByCmp doneCmp colTasks
      let limit := col.limit.getD settings.doneLimit
      if sorted.length > limit then sorted.take limit
      else sorted
    else sortByCmp prioCmp colTasks
  | Option.none => sortByCmp prioCmp colTasks

/-- The per-column sorting and limiting phase of `getTasksByColumn`
(lines 492-518): every entry's task list is rewritten in place. -/
def sortBuckets (todayD : Int) (settings : KiboTasksSettings)
    (m : List (Str × List KiboTask)) : List (Str × List KiboTask) :=
  m.map (fun e => (e.1, sortEntry todayD settings e.1 e.2))

/-- `TaskStore.getTasksByColumn` (board-renderer lines 467-521), with
the store's `columnAssignments` rebuilt from its tasks as
`rebuildAssignments` does.  The result maps each configured column id
to its ordered display list; the store's task list is an input and is
returned untouched by construction (the JS sorts and slices operate on
the per-call arrays built here, never on `this.tasks`). -/
def getTasksByColumn (todayD : Int) (settings : KiboTasksSettings)
    (tasks : List KiboTask) : List (Str × List KiboTask) :=
  let init := settings.columns.foldl (fun m c => setAssoc c.id [] m) []
  let assigns := columnAssignments settings.columns tasks
  sortBuckets todayD settings (fillBuckets todayD settings assigns tasks init)

/-! Specification-side predicates used only to STATE the claims; they
are compared against the source-derived functions above. -/

/-- Fold of `stripTagAll` over a tag list, in order: the column-tag
stripping loop shared by `completeTask` and the spec statements. -/
def stripTagsFold (tags : List Str) (l : Str) : Str :=
  tags.foldl (fun acc tg => stripTagAll tg acc) l

/-- The marker-date pattern occurs somewhere in `l`: marker `e`, then a
nonempty whitespace run, then four digits, dash, two digits, dash, two
digits. -/
def hasDatePattern (e : Char) (l : Str) : Prop :=
  ∃ a w r, l = a ++ e :: (w ++ r) ∧ w ≠ [] ∧ (∀ c ∈ w, isJsWs c = true) ∧
    dateHead r = true

/-- A well-formed tag token per the system's tag syntax `#[\w-]+`
(spec section 6). -/
def isTagToken (t : Str) : Prop :=
  ∃ w, t = '#' :: w ∧ w ≠ [] ∧ (∀ c ∈ w, isTagCh c = true)

/-- The checkbox pattern `- \[[ \/!]\]` occurs somewhere in `l`. -/
def hasCheckboxMatch : Str → Bool
  | [] => false
  | l@(_ :: rest) => checkboxHeadDone l || hasCheckboxMatch rest

/-- The per-pair order the done column displays (claim C8): a task with
a done date never comes after one without, and between two dated tasks
the earlier-listed one has the (weakly) larger done date. -/
def doneOrder (a b : KiboTask) : Prop :=
  (hasDone b = true → hasDone a = true) ∧
  (hasDone a = true → hasDone b = true →
    lexCmp (b.doneDate.getD []) (a.doneDate.getD []) ≤ 0)

/-! Theorems.  General helper lemmas first, then one theorem per claim
(with its witness or counterexample). -/

/-- `find?` only looks at the predicate's values on the list members. -/
theorem find?_congr {α : Type} (p q : α → Bool) (l : List α)
    (h : ∀ a ∈ l, p a = q a) : l.find? p = l.find? q := by
  induction l with
  | nil => rfl
  | cons a rest ih =>
    have ha := h a (by simp)
    simp only [List.find?]
    rw [ha]
    cases q a with
    | true => rfl
    | false => exact ih (fun b hb => h b (by simp [hb]))

/-- C1: for every task and configured column list, `assignColumn`
returns exactly the column id prescribed by the specification's
four-rule decision order (`assignColumnSpec`): done/cancelled status
first, then the first matching tag column in configuration order, then
backlog for undated tasks, then the todo column, with literal
fallbacks.  Being a total function into `Str`, it returns exactly one
id.  The hypotheses rule out the degenerate empty-string tag and
empty-string due date, which JavaScript truthiness would treat as
absent (the parser never produces either). -/
theorem assignColumn_matches_spec (task : KiboTask)
    (columns : List ColumnConfig)
    (hTag : ∀ c ∈ columns, c.type = ColumnType.tag → c.tag ≠ some [])
    (hDue : task.dueDate ≠ some []) :
    assignColumn task columns = assignColumnSpec task columns := by
  unfold assignColumn assignColumnSpec
  by_cases hx : task.status = 'x'
  · simp [hx]
  · by_cases hc : task.status = '-'
    · simp [hx, hc]
    · simp only [hx, hc, if_false, or_self, or_false, false_or]
      have hfind :
          columns.find? (fun c =>
            c.type == ColumnType.tag &&
            (match c.tag with
             | some t => !t.isEmpty && task.columnTags.contains t
             | Option.none => false)) =
          columns.find? (fun c =>
            c.type == ColumnType.tag &&
            (match c.tag with
             | some t => task.columnTags.contains t
             | Option.none => false)) := by
        apply find?_congr
        intro a ha
        by_cases hty : a.type = ColumnType.tag
        · cases htag : a.tag with
          | none => simp
          | some t =>
            have hne : t ≠ [] := by
              intro h0
              exact (hTag a ha hty) (by rw [htag, h0])
            have hE : t.isEmpty = false := by
              cases t with
              | nil => exact absurd rfl hne
              | cons x xs => rfl
            simp [hE]
        · have : (a.type == ColumnType.tag) = false := by
            simp [hty]
          simp [this]
      rw [hfind]
      cases hf : columns.find? (fun c =>
          c.type == ColumnType.tag &&
          (match c.tag with
           | some t => task.columnTags.contains t
           | Option.none => false)) with
      | some c => rfl
      | none =>
        by_cases hdn : task.dueDate = Option.none
        · have hfalsy : strFalsy task.dueDate = true := by
            simp [strFalsy, hdn]
          rw [hfalsy]
          cases hb : findType columns ColumnType.backlog with
          | some c => simp [hdn, hb]
          | none => simp [hdn, hb]
        · have hfalsy : strFalsy task.dueDate = false := by
            cases hdd : task.dueDate with
            | none => exact absurd hdd hdn
            | some s =>
              have : s ≠ [] := by
                intro h0
                exact hDue (by rw [hdd, h0])
              simp [strFalsy, List.isEmpty_iff, this]
          rw [hfalsy]
          simp [hdn]

/-- Witness for C1 at a concrete task and the default column set. -/
theorem assignColumn_matches_spec_witness :
    assignColumn
      { id := "t".data, filePath := "f".data, lineNumber := 0,
        rawLine := [], description := [], status := ' ',
        dueDate := Option.none, doneDate := Option.none,
        priority := Priority.none, tags := [],
        columnTags := ["#in-progress".data], sourceFileName := [],
        subtasks := [], pageTags := [] } DEFAULT_COLUMNS =
    assignColumnSpec
      { id := "t".data, filePath := "f".data, lineNumber := 0,
        rawLine := [], description := [], status := ' ',
        dueDate := Option.none, doneDate := Option.none,
        priority := Priority.none, tags := [],
        columnTags := ["#in-progress".data], sourceFileName := [],
        subtasks := [], pageTags := [] } DEFAULT_COLUMNS :=
  assignColumn_matches_spec _ _ (by decide) (by decide)

/-- C6: the parsed priority scans the fixed table
🔺 highest, ⏫ high, 🔼 medium, 🔽 low in table order and returns on the
first marker present anywhere in the line — first-in-table-order wins,
not first-in-text-order — and is `none` when no marker occurs. -/
theorem parsePriority_table_order (l : Str) :
    (emHighest ∈ l → parsePriority l = Priority.highest) ∧
    (emHighest ∉ l → emHigh ∈ l → parsePriority l = Priority.high) ∧
    (emHighest ∉ l → emHigh ∉ l → emMedium ∈ l →
      parsePriority l = Priority.medium) ∧
    (emHighest ∉ l → emHigh ∉ l → emMedium ∉ l → emLow ∈ l →
      parsePriority l = Priority.low) ∧
    (emHighest ∉ l → emHigh ∉ l → emMedium ∉ l → emLow ∉ l →
      parsePriority l = Priority.none) := by
  unfold parsePriority
  refine ⟨fun h1 => by simp [h1], fun h1 h2 => by simp [h1, h2],
    fun h1 h2 h3 => by simp [h1, h2, h3],
    fun h1 h2 h3 h4 => by simp [h1, h2, h3, h4],
    fun h1 h2 h3 h4 => by simp [h1, h2, h3, h4]⟩

/-- Witness for C6: a line carrying 🔽 before 🔺 in text order still
parses as `highest`, the table-order winner. -/
theorem parsePriority_table_order_witness :
    emLow ∈ ("a 🔽 b 🔺".data) ∧
    parsePriority "a 🔽 b 🔺".data = Priority.highest :=
  ⟨by decide, (parsePriority_table_order _).1 (by decide)⟩

/-- C2: moving any line to a done-type column performs exactly the
Complete transformation with the full configured column-tag list, and
nothing else; on the concrete scenario (current tag #in-progress,
configured tags #in-progress and #waiting, today 2026-02-13) the
checkbox becomes [x], #in-progress is removed, `✅ 2026-02-13` is
appended and #waiting stays absent. -/
theorem moveToColumn_done_performs_complete :
    (∀ (today : Str) (status : Char) (targetTag : Option Str)
        (allTags : List Str) (l : Str),
      moveToColumnLine today status targetTag ColumnType.done allTags l =
        completeTaskLine today allTags l) ∧
    moveToColumnLine "2026-02-13".data ' ' Option.none ColumnType.done
        ["#in-progress".data, "#waiting".data]
        "- [ ] Fix bug #task #in-progress".data =
      "- [x] Fix bug #task ✅ 2026-02-13".data ∧
    strIncl "#in-progress".data "- [x] Fix bug #task ✅ 2026-02-13".data
      = false ∧
    strIncl "#waiting".data "- [x] Fix bug #task ✅ 2026-02-13".data
      = false ∧
    strIncl ('✅' :: ' ' :: "2026-02-13".data)
      "- [x] Fix bug #task ✅ 2026-02-13".data = true := by
  refine ⟨?_, by decide, by decide, by decide, by decide⟩
  intro today status targetTag allTags l
  simp [moveToColumnLine]

/-- A digit is not JS whitespace. -/
theorem isDigitCh_not_ws (c : Char) (h : isDigitCh c = true) :
    isJsWs c = false := by
  simp [isDigitCh] at h
  simp [isJsWs]
  omega

/-- The first ten characters of a `dateHead` match form a full date. -/
theorem dateShape_take_of_dateHead (l : Str) (h : dateHead l = true) :
    dateShape (l.take 10) = true := by
  unfold dateHead at h
  split at h
  · rename_i a b c d h1 e f h2 g hh rest
    simp only [List.take, dateShape, dateHead, List.length]
    simp only [Bool.and_eq_true] at h ⊢
    exact ⟨h, by decide⟩
  · exact absurd h (by simp)

/-- A `dateHead` match starts with a digit. -/
theorem dateHead_head_digit (l : Str) (h : dateHead l = true) :
    ∃ c rest, l = c :: rest ∧ isDigitCh c = true := by
  unfold dateHead at h
  split at h
  · rename_i a b c d h1 e f h2 g hh rest
    simp only [Bool.and_eq_true] at h
    exact ⟨a, _, rfl, h.1.1.1.1.1.1.1.1.1⟩
  · exact absurd h (by simp)

/-- A `takeWhile` prefix plus the matching `drop` is the whole list. -/
theorem takeWhile_append_drop (p : Char → Bool) (l : Str) :
    l.takeWhile p ++ l.drop (l.takeWhile p).length = l := by
  induction l with
  | nil => rfl
  | cons a rest ih =>
    by_cases hp : p a
    · simp [List.takeWhile_cons, hp, ih]
    · simp [List.takeWhile_cons, hp]

/-- Success case of the marker-date scanner: the capture is a
well-formed date occurring right after the marker and a nonempty
whitespace run. -/
theorem findEmojiDate_some (e : Char) (l : Str) (d : Str)
    (h : findEmojiDate e l = some d) :
    dateShape d = true ∧
    ∃ a w b, l = a ++ e :: (w ++ (d ++ b)) ∧ w ≠ [] ∧
      (∀ c ∈ w, isJsWs c = true) := by
  induction l with
  | nil => simp [findEmojiDate] at h
  | cons c rest ih =>
    rw [findEmojiDate] at h
    by_cases hce : c = e
    · rw [if_pos hce] at h
      by_cases hcond :
          ((rest.takeWhile isJsWs).length ≠ 0 &&
            dateHead (rest.drop (rest.takeWhile isJsWs).length)) = true
      · rw [if_pos hcond] at h
        simp only [Option.some.injEq] at h
        simp only [Bool.and_eq_true, ne_eq, decide_eq_true_eq] at hcond
        obtain ⟨hw, hdh⟩ := hcond
        subst h
        subst hce
        refine ⟨dateShape_take_of_dateHead _ hdh, [], rest.takeWhile isJsWs,
          (rest.drop (rest.takeWhile isJsWs).length).drop 10, ?_, ?_, ?_⟩
        · simp only [List.nil_append, List.cons.injEq, true_and]
          rw [List.take_append_drop]
          exact (takeWhile_append_drop isJsWs rest).symm
        · intro hnil
          exact hw (by rw [hnil]; rfl)
        · intro x hx
          exact List.mem_takeWhile_imp hx
      · rw [if_neg hcond] at h
        obtain ⟨hshape, a, w, b, heq, hwne, hws⟩ := ih h
        exact ⟨hshape, c :: a, w, b, by rw [heq]; rfl, hwne, hws⟩
    · rw [if_neg hce] at h
      obtain ⟨hshape, a, w, b, heq, hwne, hws⟩ := ih h
      exact ⟨hshape, c :: a, w, b, by rw [heq]; rfl, hwne, hws⟩

/-- `takeWhile` keeps a list all of whose members satisfy the test. -/
theorem takeWhile_all (p : Char → Bool) (w : Str)
    (h : ∀ c ∈ w, p c = true) : w.takeWhile p = w := by
  induction w with
  | nil => rfl
  | cons a rest ih =>
    rw [List.takeWhile_cons, h a (by simp)]
    rw [ih (fun c hc => h c (by simp [hc]))]
    simp

/-- A full date at the head survives an arbitrary continuation. -/
theorem dateHead_append_of_shape (d b : Str) (h : dateShape d = true) :
    dateHead (d ++ b) = true := by
  simp only [dateShape, Bool.and_eq_true, decide_eq_true_eq] at h
  obtain ⟨hh, hlen⟩ := h
  unfold dateHead at hh
  split at hh
  · rename_i rest
    have hrest : rest = [] := by
      simp only [List.length_cons] at hlen
      exact List.eq_nil_of_length_eq_zero (by omega)
    subst hrest
    simpa [dateHead] using hh
  · simp at hh

/-- The scanner finds a date exactly when the marker-date pattern
occurs in the line. -/
theorem findEmojiDate_isSome_iff (e : Char) (l : Str) :
    (findEmojiDate e l).isSome = true ↔ hasDatePattern e l := by
  constructor
  · intro h
    obtain ⟨d, hd⟩ := Option.isSome_iff_exists.mp h
    obtain ⟨hshape, a, w, b, heq, hwne, hws⟩ := findEmojiDate_some e l d hd
    exact ⟨a, w, d ++ b, heq, hwne, hws, dateHead_append_of_shape d b hshape⟩
  · intro hpat
    obtain ⟨a, w, r, heq, hwne, hws, hdh⟩ := hpat
    subst heq
    induction a with
    | nil =>
      obtain ⟨c0, r0, hr, hdig⟩ := dateHead_head_digit r hdh
      rw [List.nil_append, findEmojiDate, if_pos rfl]
      have hw0 : (w ++ r).takeWhile isJsWs = w := by
        rw [List.takeWhile_append, takeWhile_all isJsWs w hws]
        rw [if_pos rfl, hr, List.takeWhile_cons, isDigitCh_not_ws c0 hdig]
        simp
      simp only [hw0, List.drop_left]
      have hcond2 : (decide (w.length ≠ 0) && dateHead r) = true := by
        simp only [Bool.and_eq_true, ne_eq, decide_eq_true_eq]
        exact ⟨fun h0 => hwne (List.eq_nil_of_length_eq_zero h0), hdh⟩
      rw [if_pos hcond2]
      rfl
    | cons a0 a1 ih =>
      rw [List.cons_append, findEmojiDate]
      by_cases hce : a0 = e
      · rw [if_pos hce]
        by_cases hcond :
            (((a1 ++ e :: (w ++ r)).takeWhile isJsWs).length ≠ 0 &&
              dateHead ((a1 ++ e :: (w ++ r)).drop
                ((a1 ++ e :: (w ++ r)).takeWhile isJsWs).length)) = true
        · rw [if_pos hcond]
          rfl
        · rw [if_neg hcond]
          exact ih
      · rw [if_neg hce]
        exact ih

/-- C7 (amended): each date field of the metadata extractor is unset
exactly when the marker-whitespace-date pattern does not occur in the
line, and otherwise holds a well-formed `dddd-dd-dd` capture taken
verbatim from right after the marker and whitespace.  (As the
counterexample shows, the original claim's "never partially parsed" is
too strong: the pattern has no trailing boundary, so a day group with
extra trailing digits is matched on its two-digit prefix.) -/
theorem parseEmojiMetadata_date_fields (l : Str) :
    ∀ p ∈ [(emDue, (parseEmojiMetadata l).dueDate),
           (emDone, (parseEmojiMetadata l).doneDate),
           (emCreated, (parseEmojiMetadata l).createdDate),
           (emScheduled, (parseEmojiMetadata l).scheduledDate),
           (emStart, (parseEmojiMetadata l).startDate),
           (emCancelled, (parseEmojiMetadata l).cancelledDate)],
      ((p.2).isSome = true ↔ hasDatePattern p.1 l) ∧
      (∀ d, p.2 = some d → dateShape d = true ∧
        ∃ a w b, l = a ++ p.1 :: (w ++ (d ++ b)) ∧ w ≠ [] ∧
          (∀ c ∈ w, isJsWs c = true)) := by
  have gen : ∀ e : Char,
      ((findEmojiDate e l).isSome = true ↔ hasDatePattern e l) ∧
      (∀ d, findEmojiDate e l = some d → dateShape d = true ∧
        ∃ a w b, l = a ++ e :: (w ++ (d ++ b)) ∧ w ≠ [] ∧
          (∀ c ∈ w, isJsWs c = true)) := by
    intro e
    refine ⟨findEmojiDate_isSome_iff e l, ?_⟩
    intro d hd
    obtain ⟨hs, a, w, b, heq, hwne, hws⟩ := findEmojiDate_some e l d hd
    exact ⟨hs, a, w, b, heq, hwne, hws⟩
  intro p hp
  simp only [List.mem_cons, List.not_mem_nil, or_false] at hp
  rcases hp with h | h | h | h | h | h <;> subst h <;> exact gen _

/-- Witness for C7 at a concrete line with a due-date token. -/
theorem parseEmojiMetadata_date_fields_witness :
    dateShape "2026-02-14".data = true ∧
    ∃ a w b, "x 📅 2026-02-14".data =
        a ++ emDue :: (w ++ ("2026-02-14".data ++ b)) ∧ w ≠ [] ∧
      (∀ c ∈ w, isJsWs c = true) :=
  (parseEmojiMetadata_date_fields "x 📅 2026-02-14".data
      (emDue, (parseEmojiMetadata "x 📅 2026-02-14".data).dueDate)
      (by simp)).2 "2026-02-14".data (by decide)

/-- Counterexample to C7 as stated: the malformed date `2026-02-123`
(wrong digit grouping in the day) IS partially parsed, into the
shorter valid-looking `2026-02-12`; a group with too few digits, as in
`2026-2-14`, is indeed never matched. -/
theorem parseEmojiMetadata_partial_parse_cex :
    (parseEmojiMetadata "📅 2026-02-123".data).dueDate =
      some "2026-02-12".data ∧
    dateShape "2026-02-123".data = false ∧
    "2026-02-12".data ≠ "2026-02-123".data ∧
    (parseEmojiMetadata "📅 2026-2-14".data).dueDate = Option.none := by
  refine ⟨by decide, by decide, by decide, by decide⟩

/-- Counterexample to C3 as stated: on the spec's scenario-2 line the
parser yields `tags = []` (the tag pattern `#[\w-]+` does not match
`@work`) and the description keeps `@work`, contradicting the claimed
`tags = ["@work"]` and `description = "Review PR"`. -/
theorem scenario2_parse_cex :
    ((parseTasksFromContent "- [ ] Review PR #task @work ⏫ 📅 2026-02-14".data
        "f.md".data "#task".data []).map (fun t => t.tags)) = [[]] ∧
    ((parseTasksFromContent "- [ ] Review PR #task @work ⏫ 📅 2026-02-14".data
        "f.md".data "#task".data []).map (fun t => t.description)) =
      ["Review PR @work".data] ∧
    ([[]] : List (List Str)) ≠ [["@work".data]] ∧
    "Review PR @work".data ≠ "Review PR".data := by
  refine ⟨by decide, by decide, by decide, by decide⟩

/-- C3 (amended): parsing the scenario-2 line with global filter
`#task` yields exactly one task with status incomplete, priority high,
dueDate 2026-02-14, an empty tag list (`@work` is not a `#`-tag) and
description "Review PR @work". -/
theorem scenario2_parse_amended :
    (parseTasksFromContent "- [ ] Review PR #task @work ⏫ 📅 2026-02-14".data
        "f.md".data "#task".data []).map
      (fun t => (t.status, t.priority, t.dueDate, t.tags, t.description)) =
    [(' ', Priority.high, some "2026-02-14".data, ([] : List Str),
      "Review PR @work".data)] := by decide

/-- Index shift for `get?` under a cons. -/
theorem get?_cons_shift {α : Type} (x : α) (xs : List α) (n j : Nat)
    (h : j + 1 ≤ n) (line : α) (hg : xs.get? (n - (j + 1)) = some line) :
    (x :: xs).get? (n - j) = some line := by
  have h2 : n - j = (n - (j + 1)) + 1 := by omega
  rw [h2]
  simpa using hg

theorem collectSubs_eq_nil (gf : Str) (ct : List Str) (j : Nat) :
    collectSubs gf ct j [] = [] := rfl

theorem collectSubs_eq_cons (gf : Str) (ct : List Str) (j : Nat)
    (subLine : Str) (rest : List Str) :
    collectSubs gf ct j (subLine :: rest) =
      match matchTaskLine subLine with
      | Option.none =>
        if (trimJs subLine).isEmpty then collectSubs gf ct (j + 1) rest
        else
          match subLine with
          | x :: _ =>
            if isJsWs x then collectSubs gf ct (j + 1) rest
            else []
          | [] => []
      | some (subIndent, subStatus, subRawText) =>
        if subIndent.length = 0 then []
        else
          { rawLine := subLine
            description := cleanDescription subRawText gf ct
            status := subStatus
            lineNumber := j } :: collectSubs gf ct (j + 1) rest := rfl

theorem collectSubs_mem (gf : Str) (ct : List Str) :
    ∀ (ls : List Str) (j : Nat) (s : SubTask), s ∈ collectSubs gf ct j ls →
      j ≤ s.lineNumber ∧ ∃ line, ls.get? (s.lineNumber - j) = some line ∧
        ∃ ind st raw, matchTaskLine line = some (ind, st, raw) ∧
          ind.length ≠ 0 := by
  intro ls
  induction ls with
  | nil =>
    intro j s hs
    rw [collectSubs_eq_nil] at hs
    simp at hs
  | cons subLine rest ih =>
    intro j s hs
    rw [collectSubs_eq_cons] at hs
    split at hs
    · split at hs
      · obtain ⟨hj, line, hget, hrest⟩ := ih (j + 1) s hs
        exact ⟨by omega, line, get?_cons_shift _ _ _ _ hj line hget, hrest⟩
      · split at hs
        · split at hs
          · obtain ⟨hj, line, hget, hrest⟩ := ih (j + 1) s hs
            exact ⟨by omega, line, get?_cons_shift _ _ _ _ hj line hget, hrest⟩
          · simp at hs
        · simp at hs
    · rename_i subIndent subStatus subRawText hm
      split at hs
      · simp at hs
      · rename_i hind
        rcases List.mem_cons.mp hs with hhead | htail
        · subst hhead
          refine ⟨le_refl j, subLine, ?_, subIndent, subStatus, subRawText,
            hm, hind⟩
          simp
        · obtain ⟨hj, line, hget, hrest⟩ := ih (j + 1) s htail
          exact ⟨by omega, line, get?_cons_shift _ _ _ _ hj line hget, hrest⟩

/-- Unfolding equation of `goLines` at a cons cell. -/
theorem goLines_eq_cons (fp gf : Str) (ct : List Str) (i : Nat)
    (line : Str) (rest : List Str) :
    goLines fp gf ct i (line :: rest) =
      match matchTaskLine line with
      | Option.none => goLines fp gf ct (i + 1) rest
      | some (ind, statusChar, rawText) =>
        if ind.length ≠ 0 then goLines fp gf ct (i + 1) rest
        else if !(strIncl gf line) then goLines fp gf ct (i + 1) rest
        else
          let emojis := parseEmojiMetadata rawText
          let tags2 := splitTags rawText gf ct
          { id := fp ++ "::".data ++ (Nat.repr i).data
            filePath := fp
            lineNumber := i
            rawLine := line
            description := cleanDescription rawText gf ct
            status := statusChar
            dueDate := emojis.dueDate
            doneDate := emojis.doneDate
            priority := emojis.priority
            tags := tags2.1
            columnTags := tags2.2
            sourceFileName := sourceFileNameOf fp
            subtasks := collectSubs gf ct (i + 1) rest
            pageTags := [] } :: goLines fp gf ct (i + 1) rest := rfl

/-- Unfolding equation of `goLines` at nil. -/
theorem goLines_eq_nil (fp gf : Str) (ct : List Str) (i : Nat) :
    goLines fp gf ct i [] = [] := rfl

/-- Every task emitted by the parser's main loop points at a line, at
or after the loop's start, that matches the checklist pattern with an
EMPTY indent and contains the global filter; and each of its subtask
records points at a line matching with a nonempty indent. -/
theorem goLines_mem (fp gf : Str) (ct : List Str) :
    ∀ (ls : List Str) (i : Nat) (t : KiboTask), t ∈ goLines fp gf ct i ls →
      i ≤ t.lineNumber ∧
      (∃ line, ls.get? (t.lineNumber - i) = some line ∧
        (∃ st raw, matchTaskLine line = some ([], st, raw)) ∧
        strIncl gf line = true) ∧
      (∀ s ∈ t.subtasks, i + 1 ≤ s.lineNumber ∧
        ∃ line, ls.get? (s.lineNumber - i) = some line ∧
          ∃ ind st raw, matchTaskLine line = some (ind, st, raw) ∧
            ind.length ≠ 0) := by
  intro ls
  induction ls with
  | nil =>
    intro i t ht
    rw [goLines_eq_nil] at ht
    simp at ht
  | cons line rest ih =>
    intro i t ht
    rw [goLines_eq_cons] at ht
    have step : t ∈ goLines fp gf ct (i + 1) rest →
        i ≤ t.lineNumber ∧
        (∃ line2, (line :: rest).get? (t.lineNumber - i) = some line2 ∧
          (∃ st raw, matchTaskLine line2 = some ([], st, raw)) ∧
          strIncl gf line2 = true) ∧
        (∀ s ∈ t.subtasks, i + 1 ≤ s.lineNumber ∧
          ∃ line2, (line :: rest).get? (s.lineNumber - i) = some line2 ∧
            ∃ ind st raw, matchTaskLine line2 = some (ind, st, raw) ∧
              ind.length ≠ 0) := by
      intro ht2
      obtain ⟨hi, ⟨l2, hg2, hm2, hf2⟩, hsub⟩ := ih (i + 1) t ht2
      refine ⟨by omega, ⟨l2, get?_cons_shift _ _ _ _ hi l2 hg2, hm2, hf2⟩, ?_⟩
      intro s hs
      obtain ⟨hj, l3, hg3, hrest⟩ := hsub s hs
      exact ⟨by omega, l3, get?_cons_shift _ _ _ _ (by omega) l3 hg3, hrest⟩
    split at ht
    · exact step ht
    · rename_i ind statusChar rawText hm
      split at ht
      · exact step ht
      · split at ht
        · exact step ht
        · rename_i hind hfil
          rcases List.mem_cons.mp ht with hhead | htail
          · subst hhead
            have hind0 : ind = [] := by
              cases hie : ind with
              | nil => rfl
              | cons a b =>
                rw [hie] at hind
                simp at hind
            refine ⟨le_refl i, ⟨line, by simp, ⟨statusChar, rawText, ?_⟩, ?_⟩,
              ?_⟩
            · rw [← hind0]
              exact hm
            · simp at hfil
              exact hfil
            · intro s hs
              obtain ⟨hj, l3, hg3, hrest⟩ :=
                collectSubs_mem gf ct rest (i + 1) s hs
              exact ⟨hj, l3, get?_cons_shift _ _ _ _ hj l3 hg3, hrest⟩
          · exact step htail

/-- C5 (amended): a TOP-LEVEL (unindented) checklist line whose text
lacks the global filter tag contributes nothing to the parser's
output: no task is emitted for it and it never appears as a subtask
record of any task.  (As the counterexample shows, the original
unrestricted claim is false: INDENTED checklist lines following a
qualifying task are captured as subtasks without any filter check.) -/
theorem topLevel_unfiltered_contributes_nothing
    (content fp gf : Str) (columns : List ColumnConfig) (i : Nat) (line : Str)
    (hline : (List.splitOn '\n' content).get? i = some line)
    (hmatch : ∃ st raw, matchTaskLine line = some ([], st, raw))
    (hfilter : strIncl gf line = false) :
    ∀ t ∈ parseTasksFromContent content fp gf columns,
      t.lineNumber ≠ i ∧ ∀ s ∈ t.subtasks, s.lineNumber ≠ i := by
  intro t ht
  unfold parseTasksFromContent at ht
  obtain ⟨h0, ⟨lt, hgt, hmt, hft⟩, hsub⟩ :=
    goLines_mem fp gf (columnTagList columns) _ 0 t ht
  constructor
  · intro heq
    rw [heq, Nat.sub_zero, hline] at hgt
    injection hgt with hv
    rw [← hv] at hft
    rw [hft] at hfilter
    exact absurd hfilter (by simp)
  · intro s hs heq
    obtain ⟨hj, l3, hg3, ind, st, raw, hm3, hind⟩ := hsub s hs
    rw [heq, Nat.sub_zero, hline] at hg3
    injection hg3 with hv
    rw [← hv] at hm3
    obtain ⟨st2, raw2, hm2⟩ := hmatch
    rw [hm2] at hm3
    injection hm3 with hp
    have h5 : ([] : Str) = ind := congrArg Prod.fst hp
    rw [← h5] at hind
    simp at hind

/-- Counterexample to C5 as stated: an indented checklist line without
the filter tag directly under a qualifying task IS captured as a
subtask (line 1 here), even though it matches the checklist pattern
and lacks `#task`. -/
theorem indented_unfiltered_becomes_subtask_cex :
    (matchTaskLine "  - [ ] child".data).isSome = true ∧
    strIncl "#task".data "  - [ ] child".data = false ∧
    ((parseTasksFromContent
        ("- [ ] parent #task".data ++ '\n' :: "  - [ ] child".data)
        "f.md".data "#task".data []).map
      (fun t => t.subtasks.map (fun s => s.lineNumber))) = [[1]] ∧
    (List.splitOn '\n'
        ("- [ ] parent #task".data ++ '\n' :: "  - [ ] child".data)).get? 1 =
      some "  - [ ] child".data := by
  refine ⟨by decide, by decide, by decide, by decide⟩

/-- Witness for C5 at a concrete two-line document whose second
top-level checklist line lacks the filter: the parser emits exactly one
task, for line 0, and the theorem instance for line 1 holds. -/
theorem topLevel_unfiltered_contributes_nothing_witness :
    (∀ t ∈ parseTasksFromContent
        ("- [ ] a #task".data ++ '\n' :: "- [ ] b".data)
        "f.md".data "#task".data [],
      t.lineNumber ≠ 1 ∧ ∀ s ∈ t.subtasks, s.lineNumber ≠ 1) ∧
    (parseTasksFromContent
        ("- [ ] a #task".data ++ '\n' :: "- [ ] b".data)
        "f.md".data "#task".data []).map (fun t => t.lineNumber) = [0] :=
  ⟨topLevel_unfiltered_contributes_nothing _ _ _ _ 1 "- [ ] b".data
    (by decide) ⟨' ', "b".data, by decide⟩ (by decide), by decide⟩

/-- Cons-cons step of `isPrefixOf`, by definition. -/
theorem isPrefixOf_cons_cons (a b : Char) (as bs : List Char) :
    (a :: as).isPrefixOf (b :: bs) = (a == b && as.isPrefixOf bs) := rfl

/-- A prefix of a list is a prefix of any extension. -/
theorem isPrefixOf_mono_append (t X Y : Str) (h : t.isPrefixOf X = true) :
    t.isPrefixOf (X ++ Y) = true := by
  rw [List.isPrefixOf_iff_prefix] at h ⊢
  exact h.trans (List.prefix_append X Y)

/-- A too-long candidate is not a prefix. -/
theorem isPrefixOf_false_of_longer (t X : Str) (h : X.length < t.length) :
    t.isPrefixOf X = false := by
  cases hp : t.isPrefixOf X with
  | false => rfl
  | true =>
    have := (List.isPrefixOf_iff_prefix.mp hp).length_le
    omega

/-- Whether a space-free token is a prefix does not depend on anything
past a space separator. -/
theorem isPrefixOf_append_sep (t : Str) (hsp : ' ' ∉ t) :
    ∀ X Y : Str, t.isPrefixOf (X ++ ' ' :: Y) = t.isPrefixOf X := by
  induction t with
  | nil =>
    intro X Y
    cases X <;> rfl
  | cons c t' ih =>
    intro X Y
    cases X with
    | nil =>
      simp only [List.nil_append, isPrefixOf_cons_cons]
      have hc : (c == ' ') = false := by
        cases hcc : c == ' ' with
        | false => rfl
        | true =>
          exact absurd (by rw [eq_of_beq hcc]; exact List.mem_cons_self _ _)
            hsp
      rw [hc]
      rfl
    | cons x X' =>
      simp only [List.cons_append, isPrefixOf_cons_cons]
      rw [ih (fun hm => hsp (List.mem_cons_of_mem c hm)) X' Y]

/-- `countOccur` of a nonempty token over the empty string. -/
theorem countOccur_nil (t : Str) (h : t ≠ []) : countOccur t [] = 0 := by
  rw [countOccur]
  cases t with
  | nil => exact absurd rfl h
  | cons a as => rfl

/-- A token never occurs in a strictly shorter string. -/
theorem countOccur_eq_zero_of_shorter (t : Str) :
    ∀ X : Str, X.length < t.length → countOccur t X = 0 := by
  intro X
  induction X with
  | nil =>
    intro h
    exact countOccur_nil t (by
      intro h0
      rw [h0] at h
      simp at h)
  | cons x X' ih =>
    intro h
    have h2 : X'.length < t.length := by
      simp only [List.length_cons] at h
      omega
    rw [countOccur, isPrefixOf_false_of_longer t (x :: X') h, ih h2]
    simp

/-- A nonempty token occurs exactly once in itself. -/
theorem countOccur_self (t : Str) (h : t ≠ []) : countOccur t t = 1 := by
  cases ht : t with
  | nil => exact absurd ht h
  | cons a as =>
    have hpre : (a :: as).isPrefixOf (a :: as) = true := by
      rw [List.isPrefixOf_iff_prefix]
    have hshort : countOccur (a :: as) as = 0 := by
      apply countOccur_eq_zero_of_shorter
      simp
    rw [countOccur, hpre, hshort]
    simp

/-- Occurrence counting splits at a space separator for space-free
nonempty tokens. -/
theorem countOccur_append_sep (t : Str) (hsp : ' ' ∉ t) (hne : t ≠ []) :
    ∀ X Y : Str,
      countOccur t (X ++ ' ' :: Y) = countOccur t X + countOccur t (' ' :: Y) := by
  intro X Y
  induction X with
  | nil =>
    rw [countOccur_nil t hne]
    simp
  | cons x X' ih =>
    have hx : x :: X' ++ ' ' :: Y = x :: (X' ++ ' ' :: Y) := rfl
    rw [hx, countOccur, countOccur]
    have hb : t.isPrefixOf (x :: (X' ++ ' ' :: Y)) =
        t.isPrefixOf (x :: X') := by
      have := isPrefixOf_append_sep t hsp (x :: X') Y
      simpa using this
    rw [hb, ih]
    omega

/-- `strIncl` holds exactly when the occurrence count is positive. -/
theorem strIncl_iff_countOccur_pos (t : Str) :
    ∀ X : Str, strIncl t X = true ↔ 0 < countOccur t X := by
  intro X
  induction X with
  | nil =>
    rw [strIncl, countOccur]
    cases hp : t.isPrefixOf [] <;> simp
  | cons x X' ih =>
    rw [strIncl, countOccur]
    cases hp : t.isPrefixOf (x :: X') <;> simp [ih]

/-- Occurrence somewhere in a prefix survives extension to the right. -/
theorem strIncl_mono_append_right (t P Q : Str)
    (h : strIncl t P = true) : strIncl t (P ++ Q) = true := by
  induction P with
  | nil =>
    rw [strIncl] at h
    have ht : t = [] := by
      rw [List.isPrefixOf_iff_prefix] at h
      exact List.prefix_nil.mp h
    subst ht
    cases Q with
    | nil => rfl
    | cons q Q' =>
      rw [List.nil_append, strIncl]
      simp [List.isPrefixOf]
  | cons p P' ih =>
    rw [strIncl] at h
    rw [List.cons_append, strIncl]
    cases hp : t.isPrefixOf (p :: P') with
    | true =>
      have h2 := isPrefixOf_mono_append t (p :: P') Q hp
      rw [List.cons_append] at h2
      simp [h2]
    | false =>
      rw [hp] at h
      simp only [Bool.false_or] at h
      rw [ih h]
      simp

/-- Occurrence somewhere in a suffix survives extension to the left. -/
theorem strIncl_mono_append_left (t P Q : Str)
    (h : strIncl t Q = true) : strIncl t (P ++ Q) = true := by
  induction P with
  | nil => simpa using h
  | cons p P' ih =>
    rw [List.cons_append, strIncl, ih]
    simp

/-- The trimmed-end string: decomposition into the kept prefix and the
removed all-whitespace suffix, with the kept prefix ending in a
non-whitespace character when nonempty. -/
theorem trimEndJs_decomp (X : Str) :
    X = trimEndJs X ++ (X.reverse.takeWhile isJsWs).reverse ∧
    (∀ c ∈ (X.reverse.takeWhile isJsWs).reverse, isJsWs c = true) ∧
    (trimEndJs X = [] ∨
      ∃ c, (trimEndJs X).getLast? = some c ∧ isJsWs c = false) := by
  refine ⟨?_, ?_, ?_⟩
  · conv_lhs => rw [← List.reverse_reverse X]
    conv_lhs => rw [← List.takeWhile_append_dropWhile isJsWs X.reverse]
    rw [List.reverse_append]
    rfl
  · intro c hc
    rw [List.mem_reverse] at hc
    exact List.mem_takeWhile_imp hc
  · cases hd : X.reverse.dropWhile isJsWs with
    | nil =>
      left
      rw [trimEndJs, hd]
      rfl
    | cons d ds =>
      right
      refine ⟨d, ?_, ?_⟩
      · rw [trimEndJs, hd, List.getLast?_reverse]
        rfl
      · have := List.head?_dropWhile_not isJsWs X.reverse
        rw [hd] at this
        simpa using this

/-- A tag token is nonempty and space-free. -/
theorem isTagToken_ne_and_no_space (t : Str) (h : isTagToken t) :
    t ≠ [] ∧ ' ' ∉ t := by
  obtain ⟨w, ht, hw, hall⟩ := h
  subst ht
  refine ⟨by simp, ?_⟩
  intro hm
  rcases List.mem_cons.mp hm with h1 | h2
  · exact absurd h1.symm (by decide)
  · have := hall ' ' h2
    exact absurd this (by decide)

/-- No occurrences when the token is not included. -/
theorem countOccur_eq_zero_of_not_strIncl (t X : Str)
    (h : strIncl t X = false) : countOccur t X = 0 := by
  cases hc : countOccur t X with
  | zero => rfl
  | succ n =>
    have : strIncl t X = true := (strIncl_iff_countOccur_pos t X).mpr (by omega)
    rw [this] at h
    exact absurd h (by simp)

/-- A space-free nonempty token is not a prefix of a string starting
with a space. -/
theorem isPrefixOf_space_head_false (t Z : Str) (hne : t ≠ [])
    (hsp : ' ' ∉ t) : t.isPrefixOf (' ' :: Z) = false := by
  cases t with
  | nil => exact absurd rfl hne
  | cons c t' =>
    rw [isPrefixOf_cons_cons]
    have hc : (c == ' ') = false := by
      cases hcc : c == ' ' with
      | false => rfl
      | true =>
        exact absurd (by rw [eq_of_beq hcc]; exact List.mem_cons_self _ _) hsp
    rw [hc]
    rfl

/-- Exactly one occurrence of the token in `A ++ ' ' ++ t ++ ' ' ++ B`
when it occurs in neither `A` nor `B`. -/
theorem countOccur_sandwich (t A B : Str) (hne : t ≠ []) (hsp : ' ' ∉ t)
    (hA : strIncl t A = false) (hB : strIncl t B = false) :
    countOccur t (A ++ ' ' :: (t ++ ' ' :: B)) = 1 := by
  rw [countOccur_append_sep t hsp hne A (t ++ ' ' :: B)]
  rw [countOccur_eq_zero_of_not_strIncl t A hA]
  rw [countOccur, isPrefixOf_space_head_false t _ hne hsp]
  rw [countOccur_append_sep t hsp hne t B]
  rw [countOccur_self t hne]
  rw [countOccur, isPrefixOf_space_head_false t B hne hsp]
  rw [countOccur_eq_zero_of_not_strIncl t B hB]
  simp

/-- Exactly one occurrence of the token in `A ++ ' ' ++ t` when it does
not occur in `A`. -/
theorem countOccur_end (t A : Str) (hne : t ≠ []) (hsp : ' ' ∉ t)
    (hA : strIncl t A = false) :
    countOccur t (A ++ ' ' :: t) = 1 := by
  rw [countOccur_append_sep t hsp hne A t]
  rw [countOccur_eq_zero_of_not_strIncl t A hA]
  rw [countOccur, isPrefixOf_space_head_false t t hne hsp]
  rw [countOccur_self t hne]
  simp

/-- `trimEnd` of a piece of `l` contains the token only if `l` does. -/
theorem strIncl_trimEnd_false (t X : Str) (h : strIncl t X = false) :
    strIncl t (trimEndJs X) = false := by
  cases hc : strIncl t (trimEndJs X) with
  | false => rfl
  | true =>
    obtain ⟨hdec, _, _⟩ := trimEndJs_decomp X
    have : strIncl t X = true := by
      rw [hdec]
      exact strIncl_mono_append_right t _ _ hc
    rw [this] at h
    exact absurd h (by simp)

/-- `insertTag` introduces exactly one occurrence of a token absent
from the line. -/
theorem countOccur_insertTagLine (l t : Str) (hne : t ≠ []) (hsp : ' ' ∉ t)
    (hni : strIncl t l = false) :
    countOccur t (insertTagLine l t) = 1 := by
  have hsplit :
      l.takeWhile (fun c => !(insertTagEmojiChars.contains c)) ++
        l.drop (l.takeWhile (fun c => !(insertTagEmojiChars.contains c))).length
        = l :=
    takeWhile_append_drop _ l
  have hbefore : strIncl t
      (l.takeWhile (fun c => !(insertTagEmojiChars.contains c))) = false := by
    cases hc : strIncl t
        (l.takeWhile (fun c => !(insertTagEmojiChars.contains c))) with
    | false => rfl
    | true =>
      have h2 := strIncl_mono_append_right t _
        (l.drop
          (l.takeWhile (fun c => !(insertTagEmojiChars.contains c))).length) hc
      rw [hsplit] at h2
      rw [h2] at hni
      exact absurd hni (by simp)
  have hafter : strIncl t
      (l.drop
        (l.takeWhile (fun c => !(insertTagEmojiChars.contains c))).length)
      = false := by
    cases hc : strIncl t
        (l.drop
          (l.takeWhile (fun c => !(insertTagEmojiChars.contains c))).length) with
    | false => rfl
    | true =>
      have h2 := strIncl_mono_append_left t
        (l.takeWhile (fun c => !(insertTagEmojiChars.contains c))) _ hc
      rw [hsplit] at h2
      rw [h2] at hni
      exact absurd hni (by simp)
  rw [insertTagLine]
  split
  · exact countOccur_sandwich t _ _ hne hsp
      (strIncl_trimEnd_false t _ hbefore) hafter
  · exact countOccur_end t _ hne hsp (strIncl_trimEnd_false t _ hni)

/-- C9: for a well-formed tag token, when the line does not already
contain the tag, Add-tag twice equals Add-tag once, and the result
contains exactly one occurrence of the tag; when the tag is already
present, Add-tag is a no-op. -/
theorem addTag_idempotent (l t : Str) (htok : isTagToken t) :
    (strIncl t l = false →
      addTagLine (addTagLine l t) t = addTagLine l t ∧
      countOccur t (addTagLine l t) = 1) ∧
    (strIncl t l = true → addTagLine l t = l) := by
  obtain ⟨hne, hsp⟩ := isTagToken_ne_and_no_space t htok
  constructor
  · intro hni
    have h1 : addTagLine l t = insertTagLine l t := by
      rw [addTagLine, hni]
      simp
    have hcount : countOccur t (insertTagLine l t) = 1 :=
      countOccur_insertTagLine l t hne hsp hni
    have hincl : strIncl t (insertTagLine l t) = true :=
      (strIncl_iff_countOccur_pos t _).mpr (by omega)
    refine ⟨?_, by rw [h1]; exact hcount⟩
    rw [h1, addTagLine, hincl]
    simp
  · intro hyes
    rw [addTagLine, hyes]
    simp

/-- Witness for C9 at a concrete line and tag. -/
theorem addTag_idempotent_witness :
    addTagLine (addTagLine "- [ ] a #task 📅 2026-02-14".data
        "#in-progress".data) "#in-progress".data =
      addTagLine "- [ ] a #task 📅 2026-02-14".data "#in-progress".data ∧
    countOccur "#in-progress".data
      (addTagLine "- [ ] a #task 📅 2026-02-14".data "#in-progress".data)
      = 1 :=
  (addTag_idempotent "- [ ] a #task 📅 2026-02-14".data "#in-progress".data
    ⟨"in-progress".data, by decide, by decide, by decide⟩).1 (by decide)

/-- A token whose head differs from the first character is not a
prefix. -/
theorem isPrefixOf_head_ne_false (t : Str) (a : Char)
    (hh : t.head? = some a) (b : Char) (hab : a ≠ b) (X : Str) :
    t.isPrefixOf (b :: X) = false := by
  cases t with
  | nil => simp at hh
  | cons c t' =>
    have hc : c = a := by
      injection hh
    subst hc
    rw [isPrefixOf_cons_cons]
    have : (c == b) = false := by
      cases hcb : c == b with
      | false => rfl
      | true => exact absurd (eq_of_beq hcb) hab
    rw [this]
    rfl

/-- Unfolding equation of the tag-strip scanner at skip zero. -/
theorem stripTagGo_zero_cons (t : Str) (c : Char) (rest : Str) :
    stripTagGo t 0 (c :: rest) =
      if t.isPrefixOf ((c :: rest).drop ((c :: rest).takeWhile isJsWs).length)
      then stripTagGo t (((c :: rest).takeWhile isJsWs).length + t.length - 1)
        rest
      else c :: stripTagGo t 0 rest := rfl

/-- A positive skip consumes one character. -/
theorem stripTagGo_succ_cons (t : Str) (k : Nat) (c : Char) (rest : Str) :
    stripTagGo t (k + 1) (c :: rest) = stripTagGo t k rest := rfl

/-- Skipping `s` characters is dropping them. -/
theorem stripTagGo_skip (t : Str) :
    ∀ (l : Str) (s : Nat), stripTagGo t s l = stripTagGo t 0 (l.drop s) := by
  intro l
  induction l with
  | nil =>
    intro s
    cases s <;> rfl
  | cons c rest ih =>
    intro s
    cases s with
    | zero => rfl
    | succ k =>
      rw [stripTagGo_succ_cons, ih k]
      rfl

/-- The scanner emits a non-whitespace character that cannot start the
token. -/
theorem stripTagGo_zero_emit_nonws (t : Str) (hh : t.head? = some '#')
    (c : Char) (hcw : isJsWs c = false) (hc : c ≠ '#') (rest : Str) :
    stripTagGo t 0 (c :: rest) = c :: stripTagGo t 0 rest := by
  have hw : (c :: rest).takeWhile isJsWs = [] := by
    simp [List.takeWhile_cons, hcw]
  have hpre : t.isPrefixOf (c :: rest) = false :=
    isPrefixOf_head_ne_false t '#' hh c (fun h => hc h.symm) rest
  rw [stripTagGo_zero_cons, hw]
  simp [hpre]

/-- The scanner emits a whitespace character whose following character
is non-whitespace and cannot start the token. -/
theorem stripTagGo_zero_emit_ws_next (t : Str) (hh : t.head? = some '#')
    (c : Char) (hcw : isJsWs c = true) (d : Char) (hdw : isJsWs d = false)
    (hd : d ≠ '#') (rest2 : Str) :
    stripTagGo t 0 (c :: d :: rest2) = c :: stripTagGo t 0 (d :: rest2) := by
  have hw : (c :: d :: rest2).takeWhile isJsWs = [c] := by
    simp [List.takeWhile_cons, hcw, hdw]
  have hpre : t.isPrefixOf (d :: rest2) = false :=
    isPrefixOf_head_ne_false t '#' hh d (fun h => hd h.symm) rest2
  rw [stripTagGo_zero_cons, hw]
  simp [hpre]

/-- Stripping a `#`-headed tag passes over a 5-character checkbox
prefix `- [m]` untouched, for any marker other than `#`. -/
theorem stripTagAll_prefix5 (t : Str) (hh : t.head? = some '#') (m : Char)
    (hm : m ≠ '#') (S : Str) :
    stripTagAll t ('-' :: ' ' :: '[' :: m :: ']' :: S) =
      '-' :: ' ' :: '[' :: m :: ']' :: stripTagAll t S := by
  rw [stripTagAll]
  rw [stripTagGo_zero_emit_nonws t hh '-' (by decide) (by decide)]
  rw [stripTagGo_zero_emit_ws_next t hh ' ' (by decide) '[' (by decide)
    (by decide)]
  rw [stripTagGo_zero_emit_nonws t hh '[' (by decide) (by decide)]
  by_cases hmw : isJsWs m = true
  · rw [stripTagGo_zero_emit_ws_next t hh m hmw ']' (by decide) (by decide)]
    rw [stripTagGo_zero_emit_nonws t hh ']' (by decide) (by decide)]
    rfl
  · rw [stripTagGo_zero_emit_nonws t hh m (by simpa using hmw) hm]
    rw [stripTagGo_zero_emit_nonws t hh ']' (by decide) (by decide)]
    rfl

/-- One step of the tag-strip fold. -/
theorem stripTagsFold_cons (t : Str) (ts : List Str) (l : Str) :
    stripTagsFold (t :: ts) l = stripTagsFold ts (stripTagAll t l) := rfl

/-- The whole tag-strip fold passes over a checkbox prefix. -/
theorem stripTagsFold_prefix5 (tags : List Str)
    (h : ∀ t ∈ tags, t.head? = some '#') (m : Char) (hm : m ≠ '#') :
    ∀ S : Str, stripTagsFold tags ('-' :: ' ' :: '[' :: m :: ']' :: S) =
      '-' :: ' ' :: '[' :: m :: ']' :: stripTagsFold tags S := by
  induction tags with
  | nil =>
    intro S
    rfl
  | cons t ts ih =>
    intro S
    rw [stripTagsFold_cons,
      stripTagAll_prefix5 t (h t (by simp)) m hm S,
      ih (fun t2 ht2 => h t2 (by simp [ht2])) (stripTagAll t S),
      stripTagsFold_cons]

/-- The strip scanner only deletes characters. -/
theorem stripTagGo_sublist (t : Str) :
    ∀ (l : Str) (s : Nat), (stripTagGo t s l).Sublist l := by
  intro l
  induction l with
  | nil =>
    intro s
    cases s <;> simp [stripTagGo]
  | cons c rest ih =>
    intro s
    cases s with
    | succ k =>
      rw [stripTagGo_succ_cons]
      exact (ih k).cons c
    | zero =>
      rw [stripTagGo_zero_cons]
      split
      · exact (ih _).cons c
      · exact (ih 0).cons₂ c

/-- Tag stripping only deletes characters. -/
theorem stripTagAll_sublist (t l : Str) : (stripTagAll t l).Sublist l :=
  stripTagGo_sublist t l 0

/-- The tag-strip fold only deletes characters. -/
theorem stripTagsFold_sublist (tags : List Str) :
    ∀ l : Str, (stripTagsFold tags l).Sublist l := by
  induction tags with
  | nil =>
    intro l
    exact List.Sublist.refl l
  | cons t ts ih =>
    intro l
    rw [stripTagsFold_cons]
    exact (ih (stripTagAll t l)).trans (stripTagAll_sublist t l)

/-- Unfolding equations of `collapseWs`. -/
theorem collapseWs_one (a : Char) :
    collapseWs [a] = if isJsWs a then [' '] else [a] := rfl

/-- Two-character unfolding equation of `collapseWs`. -/
theorem collapseWs_cons_cons (a b : Char) (rest : Str) :
    collapseWs (a :: b :: rest) =
      if isJsWs a then
        (if isJsWs b then collapseWs (b :: rest)
         else ' ' :: collapseWs (b :: rest))
      else a :: collapseWs (b :: rest) := rfl

/-- Collapsing never empties a nonempty string. -/
theorem collapseWs_ne_nil : ∀ X : Str, X ≠ [] → collapseWs X ≠ [] := by
  intro X
  induction X with
  | nil => intro h; exact absurd rfl h
  | cons a rest ih =>
    intro _
    cases rest with
    | nil =>
      rw [collapseWs_one]
      split <;> simp
    | cons b rest2 =>
      rw [collapseWs_cons_cons]
      by_cases ha : isJsWs a = true
      · by_cases hb : isJsWs b = true
        · simpa [ha, hb] using ih (by simp)
        · simp [ha, hb]
      · simp [ha]

/-- Head of the collapse of a string starting with non-whitespace. -/
theorem collapseWs_head_nonws (b : Char) (hb : isJsWs b = false)
    (rest : Str) : (collapseWs (b :: rest)).head? = some b := by
  cases rest with
  | nil => rw [collapseWs_one]; simp [hb]
  | cons c rest2 => rw [collapseWs_cons_cons]; simp [hb]

/-- Collapse distributes over an append whose left part ends in a
non-whitespace character. -/
theorem collapseWs_append_last :
    ∀ A : Str, (∃ c, A.getLast? = some c ∧ isJsWs c = false) →
      ∀ B : Str, collapseWs (A ++ B) = collapseWs A ++ collapseWs B := by
  intro A
  induction A with
  | nil =>
    intro hA
    obtain ⟨c, hc, _⟩ := hA
    simp at hc
  | cons a rest ih =>
    intro hA B
    cases rest with
    | nil =>
      obtain ⟨c, hc, hcw⟩ := hA
      have hca : c = a := by
        simp at hc
        exact hc.symm
      subst hca
      cases B with
      | nil =>
        have h0 : collapseWs ([] : Str) = [] := rfl
        simp [h0]
      | cons b B' =>
        simp only [List.cons_append, List.nil_append]
        rw [collapseWs_cons_cons, collapseWs_one]
        simp [hcw]
    | cons r rest2 =>
      have hA2 : ∃ c, (r :: rest2).getLast? = some c ∧ isJsWs c = false := by
        obtain ⟨c, hc, hcw⟩ := hA
        rw [List.getLast?_cons_cons] at hc
        exact ⟨c, hc, hcw⟩
      have ihB := ih hA2 B
      simp only [List.cons_append] at ihB ⊢
      rw [collapseWs_cons_cons, collapseWs_cons_cons a r rest2]
      by_cases ha : isJsWs a = true
      · by_cases hr : isJsWs r = true
        · simp [ha, hr, ihB]
        · simp [ha, hr, ihB]
      · simp [ha, ihB]

/-- A nonempty all-whitespace string collapses to one space. -/
theorem collapseWs_all_ws :
    ∀ W : Str, W ≠ [] → (∀ c ∈ W, isJsWs c = true) → collapseWs W = [' '] := by
  intro W
  induction W with
  | nil => intro h; exact absurd rfl h
  | cons a rest ih =>
    intro _ hall
    cases rest with
    | nil => rw [collapseWs_one]; simp [hall a (by simp)]
    | cons b rest2 =>
      rw [collapseWs_cons_cons]
      simp only [hall a (by simp), hall b (by simp), if_true]
      exact ih (by simp) (fun c hc => hall c (by simp [hc]))

/-- A whitespace-free string is unchanged by collapsing. -/
theorem collapseWs_no_ws :
    ∀ X : Str, (∀ c ∈ X, isJsWs c = false) → collapseWs X = X := by
  intro X
  induction X with
  | nil => intro _; rfl
  | cons a rest ih =>
    intro hall
    cases rest with
    | nil => rw [collapseWs_one]; simp [hall a (by simp)]
    | cons b rest2 =>
      rw [collapseWs_cons_cons]
      simp only [hall a (by simp)]
      simp only [Bool.false_eq_true, if_false]
      rw [ih (fun c hc => hall c (by simp [hc]))]

/-- `getLast?` of a cons with a nonempty tail. -/
theorem getLast?_cons_ne (x : Char) (Y : Str) (h : Y ≠ []) :
    (x :: Y).getLast? = Y.getLast? := by
  cases Y with
  | nil => exact absurd rfl h
  | cons y Y' => rw [List.getLast?_cons_cons]

/-- Collapsing preserves a non-whitespace last character. -/
theorem collapseWs_getLast :
    ∀ (X : Str) (c : Char), X.getLast? = some c → isJsWs c = false →
      (collapseWs X).getLast? = some c := by
  intro X
  induction X with
  | nil => intro c hc _; simp at hc
  | cons a rest ih =>
    intro c hc hcw
    cases rest with
    | nil =>
      have hca : a = c := by
        simp at hc
        exact hc
      subst hca
      rw [collapseWs_one]
      simp [hcw]
    | cons b rest2 =>
      rw [List.getLast?_cons_cons] at hc
      have ih2 := ih c hc hcw
      have hne : collapseWs (b :: rest2) ≠ [] := collapseWs_ne_nil _ (by simp)
      rw [collapseWs_cons_cons]
      by_cases ha : isJsWs a = true
      · by_cases hb : isJsWs b = true
        · simp only [ha, hb, if_true]
          exact ih2
        · simp only [ha, hb, if_true, Bool.false_eq_true, if_false]
          rw [getLast?_cons_ne _ _ hne]
          exact ih2
      · simp only [ha, Bool.false_eq_true, if_false]
        rw [getLast?_cons_ne _ _ hne]
        exact ih2

/-- Characters of a collapse come from the input or are the space. -/
theorem mem_collapseWs :
    ∀ (X : Str) (c : Char), c ∈ collapseWs X → c ∈ X ∨ c = ' ' := by
  intro X
  induction X with
  | nil => intro c hc; simp [collapseWs] at hc
  | cons a rest ih =>
    intro c hc
    cases rest with
    | nil =>
      rw [collapseWs_one] at hc
      by_cases ha : isJsWs a = true
      · simp [ha] at hc
        right
        exact hc
      · simp [ha] at hc
        left
        simp [hc]
    | cons b rest2 =>
      rw [collapseWs_cons_cons] at hc
      by_cases ha : isJsWs a = true
      · by_cases hb : isJsWs b = true
        · simp only [ha, hb, if_true] at hc
          rcases ih c hc with h1 | h2
          · left; simp [h1]
          · right; exact h2
        · simp only [ha, hb, if_true, Bool.false_eq_true, if_false] at hc
          rcases List.mem_cons.mp hc with h1 | h2
          · right; exact h1
          · rcases ih c h2 with h3 | h4
            · left; simp [h3]
            · right; exact h4
      · simp only [ha, Bool.false_eq_true, if_false] at hc
        rcases List.mem_cons.mp hc with h1 | h2
        · left; simp [h1]
        · rcases ih c h2 with h3 | h4
          · left; simp [h3]
          · right; exact h4

/-- The collapse output never has two adjacent whitespace characters. -/
theorem collapseWs_chain (X : Str) :
    List.Chain' (fun a b => isJsWs a = true → isJsWs b = false)
      (collapseWs X) := by
  induction X with
  | nil => simp [collapseWs]
  | cons a rest ih =>
    cases rest with
    | nil =>
      rw [collapseWs_one]
      split <;> simp
    | cons b rest2 =>
      rw [collapseWs_cons_cons]
      by_cases ha : isJsWs a = true
      · by_cases hb : isJsWs b = true
        · simp only [ha, hb, if_true]
          exact ih
        · have hb2 : isJsWs b = false := by simpa using hb
          simp only [ha, hb, if_true, Bool.false_eq_true, if_false]
          rw [List.chain'_cons']
          refine ⟨?_, ih⟩
          intro y hy
          rw [collapseWs_head_nonws b hb2 rest2] at hy
          injection hy with hy2
          subst hy2
          intro _
          exact hb2
      · simp only [ha, Bool.false_eq_true, if_false]
        rw [List.chain'_cons']
        refine ⟨?_, ih⟩
        intro y hy hws
        exact absurd hws (by simp [ha])

/-- Every whitespace character of a collapse is the plain space. -/
theorem collapseWs_ws_is_space (X : Str) :
    ∀ c ∈ collapseWs X, isJsWs c = true → c = ' ' := by
  induction X with
  | nil => intro c hc _; simp [collapseWs] at hc
  | cons a rest ih =>
    intro c hc hws
    cases rest with
    | nil =>
      rw [collapseWs_one] at hc
      by_cases ha : isJsWs a = true
      · simp [ha] at hc
        exact hc
      · simp [ha] at hc
        subst hc
        rw [hws] at ha
        exact absurd rfl ha
    | cons b rest2 =>
      rw [collapseWs_cons_cons] at hc
      by_cases ha : isJsWs a = true
      · by_cases hb : isJsWs b = true
        · simp only [ha, hb, if_true] at hc
          exact ih c hc hws
        · simp only [ha, hb, if_true, Bool.false_eq_true, if_false] at hc
          rcases List.mem_cons.mp hc with h1 | h2
          · exact h1
          · exact ih c h2 hws
      · simp only [ha, Bool.false_eq_true, if_false] at hc
        rcases List.mem_cons.mp hc with h1 | h2
        · subst h1
          rw [hws] at ha
          exact absurd rfl ha
        · exact ih c h2 hws

/-- A string with no whitespace runs and only plain spaces collapses to
itself. -/
theorem collapseWs_eq_self_of_normal :
    ∀ X : Str,
      List.Chain' (fun a b => isJsWs a = true → isJsWs b = false) X →
      (∀ c ∈ X, isJsWs c = true → c = ' ') → collapseWs X = X := by
  intro X
  induction X with
  | nil => intro _ _; rfl
  | cons a rest ih =>
    intro hch hsp
    cases rest with
    | nil =>
      by_cases ha : isJsWs a = true
      · have ha2 : a = ' ' := hsp a (by simp) ha
        subst ha2
        rw [collapseWs_one]
        simp [ha]
      · rw [collapseWs_one]
        simp [ha]
    | cons b rest2 =>
      rw [List.chain'_cons] at hch
      have ih2 := ih hch.2 (fun c hc hw => hsp c (by simp [hc]) hw)
      rw [collapseWs_cons_cons]
      by_cases ha : isJsWs a = true
      · have hb : isJsWs b = false := hch.1 ha
        have ha' : a = ' ' := hsp a (by simp) ha
        simp only [ha, hb, if_true, Bool.false_eq_true, if_false]
        rw [ih2, ha']
      · simp only [ha, Bool.false_eq_true, if_false]
        rw [ih2]

/-- Collapsing is idempotent. -/
theorem collapseWs_idem (X : Str) :
    collapseWs (collapseWs X) = collapseWs X :=
  collapseWs_eq_self_of_normal (collapseWs X) (collapseWs_chain X)
    (collapseWs_ws_is_space X)

/-- A `getLast?` value is a member. -/
theorem getLast?_mem_gen :
    ∀ (l : Str) (c : Char), l.getLast? = some c → c ∈ l := by
  intro l
  induction l with
  | nil => intro c hc; simp at hc
  | cons a rest ih =>
    intro c hc
    cases rest with
    | nil =>
      simp at hc
      simp [hc]
    | cons b rest2 =>
      rw [List.getLast?_cons_cons] at hc
      simp [ih c hc]

/-- `trimEnd` distributes over an append whose left part ends in a
non-whitespace character. -/
theorem trimEndJs_append_last (P R : Str)
    (h : ∃ c, P.getLast? = some c ∧ isJsWs c = false) :
    trimEndJs (P ++ R) = P ++ trimEndJs R := by
  obtain ⟨c, hc, hcw⟩ := h
  rw [trimEndJs, List.reverse_append, List.dropWhile_append]
  have hrevP : P.reverse.head? = some c := by
    rw [List.head?_reverse]
    exact hc
  split
  · rename_i hemp
    rw [List.isEmpty_iff] at hemp
    have : P.reverse.dropWhile isJsWs = P.reverse := by
      cases hrp : P.reverse with
      | nil => rfl
      | cons x xs =>
        rw [hrp] at hrevP
        injection hrevP with hx
        subst hx
        rw [List.dropWhile_cons, hcw]
        rfl
    rw [this, List.reverse_reverse, trimEndJs, hemp]
    simp
  · rw [List.reverse_append, List.reverse_reverse, trimEndJs]

/-- The characters of a full date are never whitespace. -/
theorem dateShape_no_ws (D : Str) (h : dateShape D = true) :
    ∀ c ∈ D, isJsWs c = false := by
  have hh : dateHead D = true := by
    simp only [dateShape, Bool.and_eq_true] at h
    exact h.1
  have hlen : D.length = 10 := by
    simp only [dateShape, Bool.and_eq_true, decide_eq_true_eq] at h
    exact h.2
  unfold dateHead at hh
  split at hh
  · rename_i rest
    have hrest : rest = [] := by
      simp only [List.length_cons] at hlen
      exact List.eq_nil_of_length_eq_zero (by omega)
    subst hrest
    simp only [Bool.and_eq_true, decide_eq_true_eq] at hh
    obtain ⟨⟨⟨⟨⟨⟨⟨⟨⟨q1, q2⟩, q3⟩, q4⟩, q5⟩, q6⟩, q7⟩, q8⟩, q9⟩, q10⟩ := hh
    intro c hc
    simp only [List.mem_cons, List.not_mem_nil, or_false] at hc
    rcases hc with h | h | h | h | h | h | h | h | h | h <;> subst h
    · exact isDigitCh_not_ws _ q1
    · exact isDigitCh_not_ws _ q2
    · exact isDigitCh_not_ws _ q3
    · exact isDigitCh_not_ws _ q4
    · subst q5; decide
    · exact isDigitCh_not_ws _ q6
    · exact isDigitCh_not_ws _ q7
    · subst q8; decide
    · exact isDigitCh_not_ws _ q9
    · exact isDigitCh_not_ws _ q10
  · exact absurd hh (by simp)

/-- Dropping the `takeWhile` prefix is `dropWhile`. -/
theorem drop_takeWhile_eq_dropWhile (p : Char → Bool) :
    ∀ l : Str, l.drop (l.takeWhile p).length = l.dropWhile p := by
  intro l
  induction l with
  | nil => rfl
  | cons a rest ih =>
    by_cases ha : p a = true
    · rw [List.takeWhile_cons, ha, List.dropWhile_cons, ha]
      simpa using ih
    · have ha2 : p a = false := by simpa using ha
      rw [List.takeWhile_cons, ha2, List.dropWhile_cons, ha2]
      simp

/-- Positive skip of the date-marker scanner consumes one character. -/
theorem stripDateMarkerGo_succ_cons (e : Char) (k : Nat) (c : Char)
    (rest : Str) :
    stripDateMarkerGo e (k + 1) (c :: rest) = stripDateMarkerGo e k rest := rfl

/-- Skipping `s` characters of the date-marker scanner is dropping
them. -/
theorem stripDateMarkerGo_skip (e : Char) :
    ∀ (l : Str) (s : Nat),
      stripDateMarkerGo e s l = stripDateMarkerGo e 0 (l.drop s) := by
  intro l
  induction l with
  | nil =>
    intro s
    cases s <;> rfl
  | cons c rest ih =>
    intro s
    cases s with
    | zero => rfl
    | succ k =>
      rw [stripDateMarkerGo_succ_cons, ih k]
      rfl

/-- Unfolding equation of the date-marker scanner at skip zero. -/
theorem stripDateMarkerGo_zero_cons (e : Char) (c : Char) (rest : Str) :
    stripDateMarkerGo e 0 (c :: rest) =
      (match (c :: rest).drop ((c :: rest).takeWhile isJsWs).length with
       | x :: r1 =>
         if x = e then
           if (r1.takeWhile isJsWs).length ≠ 0 &&
               dateHead (r1.drop (r1.takeWhile isJsWs).length) then
             stripDateMarkerGo e
               (((c :: rest).takeWhile isJsWs).length + 1 +
                 (r1.takeWhile isJsWs).length + 10 - 1) rest
           else c :: stripDateMarkerGo e 0 rest
         else c :: stripDateMarkerGo e 0 rest
       | [] => c :: stripDateMarkerGo e 0 rest) := rfl

/-- The date-marker scanner emits the current character whenever the
next non-whitespace character is not the marker. -/
theorem stripDateMarkerGo_zero_emit (e : Char) (c : Char) (rest : Str)
    (h : ∀ x, ((c :: rest).dropWhile isJsWs).head? = some x → x ≠ e) :
    stripDateMarkerGo e 0 (c :: rest) = c :: stripDateMarkerGo e 0 rest := by
  rw [stripDateMarkerGo_zero_cons, drop_takeWhile_eq_dropWhile]
  cases hd : (c :: rest).dropWhile isJsWs with
  | nil => rfl
  | cons x r1 =>
    have hx : x ≠ e := h x (by rw [hd]; rfl)
    simp [hx]

/-- The date-marker scanner erases exactly the appended
`space-marker-space-date` tail. -/
theorem stripDateMarkerGo_zero_tail (e : Char) (he : isJsWs e = false)
    (D : Str) (hD : dateShape D = true) :
    stripDateMarkerGo e 0 (' ' :: e :: ' ' :: D) = [] := by
  have hsp : isJsWs ' ' = true := by decide
  have hh : dateHead D = true := by
    simp only [dateShape, Bool.and_eq_true] at hD
    exact hD.1
  have hlen : D.length = 10 := by
    simp only [dateShape, Bool.and_eq_true, decide_eq_true_eq] at hD
    exact hD.2
  obtain ⟨c0, D', hD0, hdig⟩ := dateHead_head_digit D hh
  have hnw : isJsWs c0 = false := isDigitCh_not_ws c0 hdig
  have hw : (' ' :: e :: ' ' :: D).takeWhile isJsWs = [' '] := by
    simp [List.takeWhile_cons, he, hsp]
  have hw2 : (' ' :: D).takeWhile isJsWs = [' '] := by
    rw [hD0]
    simp [List.takeWhile_cons, hsp, hnw]
  have hdD : D.drop 10 = [] := by
    apply List.drop_eq_nil_of_le
    omega
  rw [stripDateMarkerGo_zero_cons, hw]
  simp only [List.length_cons, List.length_nil, List.drop_succ_cons,
    List.drop_zero, hw2]
  simp only [if_true, Nat.zero_add, hh, Bool.and_true]
  have hcond : (decide ((1 : Nat) ≠ 0)) = true := by decide
  rw [hcond, if_pos rfl, stripDateMarkerGo_skip]
  have harith : (1 + 1 + 1 + 10 - 1 : Nat) = 12 := by norm_num
  rw [harith]
  have hstep2 : (e :: ' ' :: D).drop 12 = D.drop 10 := rfl
  rw [hstep2, hdD]
  rfl

/-- Stripping the done-date token removes exactly the appended tail and
keeps a marker-free prefix that does not end in whitespace. -/
theorem stripDateMarker_keep (e : Char) (he : isJsWs e = false) :
    ∀ A : Str, e ∉ A →
      (A = [] ∨ ∃ c, A.getLast? = some c ∧ isJsWs c = false) →
      ∀ D : Str, dateShape D = true →
      stripDateMarkerAll e (A ++ ' ' :: e :: ' ' :: D) = A := by
  intro A
  induction A with
  | nil =>
    intro _ _ D hD
    rw [stripDateMarkerAll, List.nil_append]
    exact stripDateMarkerGo_zero_tail e he D hD
  | cons a A' ih =>
    intro hA hlast D hD
    have hlast2 : ∃ c, (a :: A').getLast? = some c ∧ isJsWs c = false := by
      rcases hlast with h0 | h0
      · exact absurd h0 (by simp)
      · exact h0
    obtain ⟨cl, hcl, hclw⟩ := hlast2
    have hne : (a :: A').dropWhile isJsWs ≠ [] := by
      intro h0
      rw [List.dropWhile_eq_nil_iff] at h0
      have h1 := h0 cl (getLast?_mem_gen _ cl hcl)
      rw [h1] at hclw
      exact absurd hclw (by simp)
    have hemp : ((a :: A').dropWhile isJsWs).isEmpty = false := by
      simp [List.isEmpty_iff, hne]
    have hsplit : ((a :: A') ++ (' ' :: e :: ' ' :: D)).dropWhile isJsWs =
        (a :: A').dropWhile isJsWs ++ (' ' :: e :: ' ' :: D) := by
      rw [List.dropWhile_append, hemp]
      simp
    have hstep : stripDateMarkerGo e 0
        (a :: (A' ++ (' ' :: e :: ' ' :: D))) =
        a :: stripDateMarkerGo e 0 (A' ++ (' ' :: e :: ' ' :: D)) := by
      have hlc : a :: (A' ++ (' ' :: e :: ' ' :: D)) =
          (a :: A') ++ (' ' :: e :: ' ' :: D) := rfl
      apply stripDateMarkerGo_zero_emit
      intro x hx
      rw [hlc, hsplit] at hx
      cases hd0 : (a :: A').dropWhile isJsWs with
      | nil => exact absurd hd0 hne
      | cons x0 xs0 =>
        rw [hd0] at hx
        simp only [List.cons_append, List.head?_cons] at hx
        injection hx with hx2
        intro hxe
        have hmem : x0 ∈ a :: A' :=
          (List.dropWhile_sublist isJsWs).subset (by rw [hd0]; simp)
        rw [hx2, hxe] at hmem
        exact hA hmem
    have hA' : e ∉ A' := fun h0 => hA (by simp [h0])
    have hlast' : A' = [] ∨ ∃ c, A'.getLast? = some c ∧ isJsWs c = false := by
      cases hA2 : A' with
      | nil => left; rfl
      | cons b B2 =>
        right
        refine ⟨cl, ?_, hclw⟩
        rw [← hA2]
        rw [getLast?_cons_ne a A' (by rw [hA2]; simp)] at hcl
        exact hcl
    rw [stripDateMarkerAll, List.cons_append, hstep]
    show a :: stripDateMarkerAll e (A' ++ (' ' :: e :: ' ' :: D)) = a :: A'
    rw [ih hA' hlast' D hD]

/-- Unfolding equation of `replaceFirstXbox` at a cons cell. -/
theorem replaceFirstXbox_cons (c : Char) (rest : Str) :
    replaceFirstXbox (c :: rest) =
      if ("- [x]".data).isPrefixOf (c :: rest)
      then "- [ ]".data ++ (c :: rest).drop 5
      else c :: replaceFirstXbox rest := rfl

/-- `replace('- [x]', '- [ ]')` at a line starting with `- [x]`. -/
theorem replaceFirstXbox_head (X : Str) :
    replaceFirstXbox ('-' :: ' ' :: '[' :: 'x' :: ']' :: X) =
      '-' :: ' ' :: '[' :: ' ' :: ']' :: X := by
  have hpre : ("- [x]".data).isPrefixOf
      ('-' :: ' ' :: '[' :: 'x' :: ']' :: X) = true := by
    simp [List.isPrefixOf]
  rw [replaceFirstXbox_cons, if_pos hpre]
  rfl

/-- The checkbox rewrite at a line starting with an
incomplete/in-progress/important checkbox. -/
theorem replaceFirstCheckbox_head (m : Char)
    (hm : m = ' ' ∨ m = '/' ∨ m = '!') (S : Str) :
    replaceFirstCheckbox ('-' :: ' ' :: '[' :: m :: ']' :: S) =
      '-' :: ' ' :: '[' :: 'x' :: ']' :: S := by
  rcases hm with h | h | h <;> subst h <;> rfl

/-- The final head-spacing replace of `completeTask` rewrites its match
to itself and is the identity. -/
theorem fixHeadSpacing_id : ∀ l : Str, fixHeadSpacing l = l := by
  intro l
  simp only [fixHeadSpacing]
  split
  · rename_i rest heq
    conv_rhs => rw [← takeWhile_append_drop isJsWs l, heq]
    simp
  · rfl

/-- `replace(/ $/, '')` keeps a string not ending in a space. -/
theorem dropTrailSp_of_getLast_nonsp (X : Str) (c : Char)
    (h : X.getLast? = some c) (hc : c ≠ ' ') : dropTrailSp X = X := by
  rw [dropTrailSp, h]
  simp [hc]

/-- `replace(/ $/, '')` drops exactly one trailing space. -/
theorem dropTrailSp_concat_sp (X : Str) : dropTrailSp (X ++ [' ']) = X := by
  rw [dropTrailSp, List.getLast?_concat]
  simp [List.dropLast_concat]

/-- Unfolding of `completeTaskLine` through `stripTagsFold`. -/
theorem completeTaskLine_eq (today : Str) (tags : List Str) (l : Str) :
    completeTaskLine today tags l =
      fixHeadSpacing (collapseWs
        (if (stripTagsFold tags (replaceFirstCheckbox l)).contains emDone
         then stripTagsFold tags (replaceFirstCheckbox l)
         else trimEndJs (stripTagsFold tags (replaceFirstCheckbox l)) ++
           ' ' :: emDone :: ' ' :: today)) := rfl

/-- Core of the Complete transformation on a checklist line whose
(possibly already rewritten) marker is `mm`: the tags are stripped from
the text part, the done-date token is appended, whitespace is
normalized, and the five-character checkbox prefix passes through
untouched. -/
theorem completeCore_shape (mm : Char) (hmm : mm ≠ '#')
    (hmw : isJsWs mm = false) (hme : mm ≠ emDone)
    (B : Str) (hB : emDone ∉ B) (tags : List Str)
    (htags : ∀ t ∈ tags, t.head? = some '#') (D : Str)
    (hD : dateShape D = true) :
    fixHeadSpacing (collapseWs
      (if (stripTagsFold tags
            ('-' :: ' ' :: '[' :: mm :: ']' :: ' ' :: B)).contains emDone
       then stripTagsFold tags ('-' :: ' ' :: '[' :: mm :: ']' :: ' ' :: B)
       else trimEndJs (stripTagsFold tags
              ('-' :: ' ' :: '[' :: mm :: ']' :: ' ' :: B)) ++
            ' ' :: emDone :: ' ' :: D)) =
    '-' :: ' ' :: '[' :: mm :: ']' ::
      (collapseWs (trimEndJs (stripTagsFold tags (' ' :: B))) ++
        ' ' :: emDone :: ' ' :: D) := by
  have h2 : stripTagsFold tags ('-' :: ' ' :: '[' :: mm :: ']' :: ' ' :: B) =
      '-' :: ' ' :: '[' :: mm :: ']' :: stripTagsFold tags (' ' :: B) :=
    stripTagsFold_prefix5 tags htags mm hmm (' ' :: B)
  have hRS := stripTagsFold_sublist tags (' ' :: B)
  have hBR : emDone ∉ stripTagsFold tags (' ' :: B) := by
    intro hmem
    have h3 := hRS.subset hmem
    rcases List.mem_cons.mp h3 with h4 | h4
    · exact absurd h4 (by decide)
    · exact hB h4
  have hnotmem : emDone ∉
      '-' :: ' ' :: '[' :: mm :: ']' :: stripTagsFold tags (' ' :: B) := by
    intro h3
    simp only [List.mem_cons] at h3
    rcases h3 with h | h | h | h | h | h
    · exact absurd h (by decide)
    · exact absurd h (by decide)
    · exact absurd h (by decide)
    · exact hme h.symm
    · exact absurd h (by decide)
    · exact hBR h
  have hcont : ('-' :: ' ' :: '[' :: mm :: ']' ::
      stripTagsFold tags (' ' :: B)).contains emDone = false := by
    simpa using hnotmem
  rw [h2, hcont]
  simp only [Bool.false_eq_true, if_false]
  have h5 : trimEndJs ('-' :: ' ' :: '[' :: mm :: ']' ::
      stripTagsFold tags (' ' :: B)) =
      '-' :: ' ' :: '[' :: mm :: ']' ::
        trimEndJs (stripTagsFold tags (' ' :: B)) := by
    have := trimEndJs_append_last ('-' :: ' ' :: '[' :: mm :: ']' :: [])
      (stripTagsFold tags (' ' :: B)) ⟨']', by simp, by decide⟩
    simpa using this
  rw [h5]
  obtain ⟨hdecomp, hWws, hElast⟩ :=
    trimEndJs_decomp (stripTagsFold tags (' ' :: B))
  have hcol5 : collapseWs ('-' :: ' ' :: '[' :: mm :: ']' :: []) =
      '-' :: ' ' :: '[' :: mm :: ']' :: [] := by
    apply collapseWs_eq_self_of_normal
    · refine List.chain'_cons.mpr ⟨fun h => absurd h (by decide), ?_⟩
      refine List.chain'_cons.mpr ⟨fun _ => by decide, ?_⟩
      refine List.chain'_cons.mpr ⟨fun h => absurd h (by decide), ?_⟩
      refine List.chain'_cons.mpr ⟨fun _ => by decide, ?_⟩
      exact List.chain'_singleton _
    · intro c hc hwsc
      simp only [List.mem_cons, List.not_mem_nil, or_false] at hc
      rcases hc with h | h | h | h | h <;> subst h
      · exact absurd hwsc (by decide)
      · rfl
      · exact absurd hwsc (by decide)
      · rw [hwsc] at hmw
        exact absurd hmw (by simp)
      · exact absurd hwsc (by decide)
  have hEcases : trimEndJs (stripTagsFold tags (' ' :: B)) = [] ∨
      ∃ c, (trimEndJs (stripTagsFold tags (' ' :: B))).getLast? = some c ∧
        isJsWs c = false := hElast
  have h8 : collapseWs (' ' :: emDone :: ' ' :: D) =
      ' ' :: emDone :: ' ' :: D := by
    have hh : dateHead D = true := by
      simp only [dateShape, Bool.and_eq_true] at hD
      exact hD.1
    obtain ⟨c0, D', hD0, hdig⟩ := dateHead_head_digit D hh
    rw [collapseWs_cons_cons]
    simp only [show isJsWs ' ' = true from by decide,
      show isJsWs emDone = false from by decide, if_true,
      Bool.false_eq_true, if_false]
    rw [collapseWs_cons_cons]
    simp only [show isJsWs emDone = false from by decide,
      Bool.false_eq_true, if_false]
    rw [hD0, collapseWs_cons_cons]
    simp only [show isJsWs ' ' = true from by decide,
      isDigitCh_not_ws c0 hdig, if_true, Bool.false_eq_true, if_false]
    rw [← hD0, collapseWs_no_ws D (dateShape_no_ws D hD)]
  have hfix : ∀ X : Str, fixHeadSpacing X = X := fixHeadSpacing_id
  rcases hEcases with hE | hE
  · rw [hE]
    have hshape : '-' :: ' ' :: '[' :: mm :: ']' :: ([] : Str) ++
        (' ' :: emDone :: ' ' :: D) =
        ('-' :: ' ' :: '[' :: mm :: ']' :: []) ++
          (' ' :: emDone :: ' ' :: D) := rfl
    have h9 := collapseWs_append_last
      ('-' :: ' ' :: '[' :: mm :: ']' :: []) ⟨']', by simp, by decide⟩
      (' ' :: emDone :: ' ' :: D)
    have hgoal : '-' :: ' ' :: '[' :: mm :: ']' ::
        (' ' :: emDone :: ' ' :: D) =
        ('-' :: ' ' :: '[' :: mm :: ']' :: []) ++
          (' ' :: emDone :: ' ' :: D) := rfl
    rw [hfix]
    calc collapseWs (('-' :: ' ' :: '[' :: mm :: ']' :: []) ++
            (' ' :: emDone :: ' ' :: D))
        = collapseWs ('-' :: ' ' :: '[' :: mm :: ']' :: []) ++
            collapseWs (' ' :: emDone :: ' ' :: D) := h9
      _ = '-' :: ' ' :: '[' :: mm :: ']' ::
            (collapseWs ([] : Str) ++ ' ' :: emDone :: ' ' :: D) := by
          rw [hcol5, h8]
          rfl
  · obtain ⟨ce, hce, hcew⟩ := hE
    rw [hfix]
    have hlast2 : ∃ c, (('-' :: ' ' :: '[' :: mm :: ']' :: []) ++
        trimEndJs (stripTagsFold tags (' ' :: B))).getLast? = some c ∧
        isJsWs c = false := by
      refine ⟨ce, ?_, hcew⟩
      rw [List.getLast?_append, hce]
      rfl
    have hshape : '-' :: ' ' :: '[' :: mm :: ']' ::
        trimEndJs (stripTagsFold tags (' ' :: B)) ++
        (' ' :: emDone :: ' ' :: D) =
        (('-' :: ' ' :: '[' :: mm :: ']' :: []) ++
          trimEndJs (stripTagsFold tags (' ' :: B))) ++
          (' ' :: emDone :: ' ' :: D) := by
      simp
    rw [hshape]
    rw [collapseWs_append_last _ hlast2 _]
    rw [collapseWs_append_last ('-' :: ' ' :: '[' :: mm :: ']' :: [])
      ⟨']', by simp, by decide⟩ _]
    rw [hcol5, h8]
    simp

/-- Trimming the end only deletes characters. -/
theorem mem_trimEndJs (X : Str) (c : Char) (h : c ∈ trimEndJs X) : c ∈ X := by
  rw [trimEndJs, List.mem_reverse] at h
  have h2 := (List.dropWhile_sublist isJsWs (l := X.reverse)).subset h
  rw [List.mem_reverse] at h2
  exact h2

/-- C4 (amended).  On a checklist line `- [m] B` with an
incomplete/in-progress/important marker, no pre-existing done marker in
the body, and well-formed tag and date inputs, Complete followed by
Uncomplete restores the `- [ ]` checkbox and removes the appended done
date, but the body comes back WHITESPACE-NORMALIZED, END-TRIMMED and
COLUMN-TAG-STRIPPED rather than byte-identical: the result is exactly
`- [ ]` followed by `collapseWs (trimEndJs (stripTagsFold tags (' ' :: B)))`. -/
theorem complete_uncomplete_roundtrip (m : Char)
    (hm : m = ' ' ∨ m = '/' ∨ m = '!')
    (B : Str) (hB : emDone ∉ B) (tags : List Str)
    (htags : ∀ t ∈ tags, t.head? = some '#')
    (D : Str) (hD : dateShape D = true) :
    uncompleteTaskLine (completeTaskLine D tags
        ('-' :: ' ' :: '[' :: m :: ']' :: ' ' :: B)) =
      '-' :: ' ' :: '[' :: ' ' :: ']' ::
        collapseWs (trimEndJs (stripTagsFold tags (' ' :: B))) := by
  have hstep1 : completeTaskLine D tags
      ('-' :: ' ' :: '[' :: m :: ']' :: ' ' :: B) =
      '-' :: ' ' :: '[' :: 'x' :: ']' ::
        (collapseWs (trimEndJs (stripTagsFold tags (' ' :: B))) ++
          ' ' :: emDone :: ' ' :: D) := by
    rw [completeTaskLine_eq, replaceFirstCheckbox_head m hm]
    exact completeCore_shape 'x' (by decide) (by decide) (by decide)
      B hB tags htags D hD
  rw [hstep1]
  show dropTrailSp (collapseWs (stripDateMarkerAll emDone (replaceFirstXbox
      ('-' :: ' ' :: '[' :: 'x' :: ']' ::
        (collapseWs (trimEndJs (stripTagsFold tags (' ' :: B))) ++
          ' ' :: emDone :: ' ' :: D))))) = _
  rw [replaceFirstXbox_head]
  have hMmem : ∀ c ∈ collapseWs (trimEndJs (stripTagsFold tags (' ' :: B))),
      c ∈ (' ' :: B) ∨ c = ' ' := by
    intro c hc
    rcases mem_collapseWs _ c hc with h | h
    · exact Or.inl ((stripTagsFold_sublist tags (' ' :: B)).subset
        (mem_trimEndJs _ c h))
    · exact Or.inr h
  have hnotmemA : emDone ∉ ('-' :: ' ' :: '[' :: ' ' :: ']' ::
      collapseWs (trimEndJs (stripTagsFold tags (' ' :: B)))) := by
    intro h
    simp only [List.mem_cons] at h
    rcases h with h | h | h | h | h | h
    · exact absurd h (by decide)
    · exact absurd h (by decide)
    · exact absurd h (by decide)
    · exact absurd h (by decide)
    · exact absurd h (by decide)
    · rcases hMmem emDone h with h2 | h2
      · rcases List.mem_cons.mp h2 with h3 | h3
        · exact absurd h3 (by decide)
        · exact hB h3
      · exact absurd h2 (by decide)
  obtain ⟨hdec, hWws, hElast⟩ :=
    trimEndJs_decomp (stripTagsFold tags (' ' :: B))
  have hMlast : collapseWs (trimEndJs (stripTagsFold tags (' ' :: B))) = [] ∨
      ∃ c, (collapseWs (trimEndJs (stripTagsFold tags
        (' ' :: B)))).getLast? = some c ∧ isJsWs c = false := by
    rcases hElast with h | ⟨c, hc, hcw⟩
    · left
      rw [h]
      rfl
    · right
      exact ⟨c, collapseWs_getLast _ c hc hcw, hcw⟩
  have hlastA : ∃ c, (('-' :: ' ' :: '[' :: ' ' :: ']' :: []) ++
      collapseWs (trimEndJs (stripTagsFold tags
        (' ' :: B)))).getLast? = some c ∧ isJsWs c = false := by
    rcases hMlast with h | ⟨c, hc, hcw⟩
    · refine ⟨']', ?_, by decide⟩
      rw [h]
      rfl
    · refine ⟨c, ?_, hcw⟩
      rw [List.getLast?_append, hc]
      rfl
  have hstrip := stripDateMarker_keep emDone (by decide)
    ('-' :: ' ' :: '[' :: ' ' :: ']' ::
      collapseWs (trimEndJs (stripTagsFold tags (' ' :: B))))
    hnotmemA
    (Or.inr (by simpa using hlastA)) D hD
  rw [show stripDateMarkerAll emDone
      ('-' :: ' ' :: '[' :: ' ' :: ']' ::
        (collapseWs (trimEndJs (stripTagsFold tags (' ' :: B))) ++
          ' ' :: emDone :: ' ' :: D)) =
      stripDateMarkerAll emDone
        (('-' :: ' ' :: '[' :: ' ' :: ']' ::
          collapseWs (trimEndJs (stripTagsFold tags (' ' :: B)))) ++
          (' ' :: emDone :: ' ' :: D)) from rfl, hstrip]
  rw [show ('-' :: ' ' :: '[' :: ' ' :: ']' ::
      collapseWs (trimEndJs (stripTagsFold tags (' ' :: B)))) =
      ('-' :: ' ' :: '[' :: ' ' :: ']' :: []) ++
        collapseWs (trimEndJs (stripTagsFold tags (' ' :: B))) from by simp]
  rw [collapseWs_append_last ('-' :: ' ' :: '[' :: ' ' :: ']' :: [])
    ⟨']', by simp, by decide⟩ _]
  rw [show collapseWs ('-' :: ' ' :: '[' :: ' ' :: ']' :: []) =
      '-' :: ' ' :: '[' :: ' ' :: ']' :: [] from by decide]
  rw [collapseWs_idem]
  obtain ⟨c, hc, hcw⟩ := hlastA
  exact dropTrailSp_of_getLast_nonsp _ c hc
    (fun h => by rw [h] at hcw; exact absurd hcw (by decide))

/-- C4 counterexample: Complete-then-Uncomplete is not byte-identical
modulo column-tag removal.  (1) A double space inside the text is
collapsed to one.  (2) A cancelled `- [-]` line is not restored to the
incomplete `- [ ]` state (its marker survives both operations).  (3) A
done-date token already present before Complete is removed by
Uncomplete. -/
theorem complete_uncomplete_roundtrip_cex :
    (uncompleteTaskLine (completeTaskLine "2026-02-13".data []
        "- [ ] a  b #task".data) = "- [ ] a b #task".data ∧
      "- [ ] a b #task".data ≠ "- [ ] a  b #task".data) ∧
    uncompleteTaskLine (completeTaskLine "2026-02-13".data []
        "- [-] cancelled #task".data) = "- [-] cancelled #task".data ∧
    uncompleteTaskLine (completeTaskLine "2026-02-13".data []
        "- [ ] a ✅ 2020-01-01 #task".data) = "- [ ] a #task".data := by
  exact ⟨⟨by decide, by decide⟩, by decide, by decide⟩

/-- Witness for C4 at the in-progress marker with one column tag. -/
theorem complete_uncomplete_roundtrip_witness :
    uncompleteTaskLine (completeTaskLine "2026-02-13".data
        ["#in-progress".data]
        "- [/] write spec #task #in-progress 📅 2026-02-20".data) =
      "- [ ] write spec #task 📅 2026-02-20".data := by
  have h := complete_uncomplete_roundtrip '/' (by decide)
    "write spec #task #in-progress 📅 2026-02-20".data (by decide)
    ["#in-progress".data] (by decide) "2026-02-13".data (by decide)
  rw [show ('-' :: ' ' :: '[' :: '/' :: ']' :: ' ' ::
      "write spec #task #in-progress 📅 2026-02-20".data) =
      "- [/] write spec #task #in-progress 📅 2026-02-20".data from rfl] at h
  rw [h]
  decide

/-- Unfolding equation of `replaceFirstCheckbox` at a cons cell. -/
theorem replaceFirstCheckbox_cons (c : Char) (rest : Str) :
    replaceFirstCheckbox (c :: rest) =
      if checkboxHeadDone (c :: rest)
      then "- [x]".data ++ (c :: rest).drop 5
      else c :: replaceFirstCheckbox rest := rfl

/-- A line with no occurrence of the checkbox pattern is unchanged by
the checkbox replace. -/
theorem replaceFirstCheckbox_nomatch :
    ∀ l : Str, hasCheckboxMatch l = false → replaceFirstCheckbox l = l := by
  intro l
  induction l with
  | nil => intro _; rfl
  | cons c rest ih =>
    intro h
    have h2 : checkboxHeadDone (c :: rest) = false ∧
        hasCheckboxMatch rest = false := by
      rw [show hasCheckboxMatch (c :: rest) =
          (checkboxHeadDone (c :: rest) || hasCheckboxMatch rest) from rfl] at h
      exact ⟨by simpa using (Bool.or_eq_false_iff.mp h).1,
        (Bool.or_eq_false_iff.mp h).2⟩
    rw [replaceFirstCheckbox_cons, h2.1]
    simp only [Bool.false_eq_true, if_false]
    rw [ih h2.2]

/-- The checkbox scan skips a cancelled `- [-]` head and continues in
the body. -/
theorem hasCheckboxMatch_cancelled_head (B : Str) :
    hasCheckboxMatch ('-' :: ' ' :: '[' :: '-' :: ']' :: ' ' :: B) =
      hasCheckboxMatch B := rfl

/-- C10.  The checkbox rewrite of Complete matches exactly the markers
` `, `/` and `!`; on a cancelled line `- [-] B` whose body contains no
such checkbox pattern and no done marker, Complete keeps the `- [-]`
marker, strips the supplied column tags from the body, and appends the
done-date token. -/
theorem completeTask_cancelled (B : Str) (hB : emDone ∉ B)
    (hno : hasCheckboxMatch B = false) (tags : List Str)
    (htags : ∀ t ∈ tags, t.head? = some '#')
    (D : Str) (hD : dateShape D = true) :
    completeTaskLine D tags ('-' :: ' ' :: '[' :: '-' :: ']' :: ' ' :: B) =
      '-' :: ' ' :: '[' :: '-' :: ']' ::
        (collapseWs (trimEndJs (stripTagsFold tags (' ' :: B))) ++
          ' ' :: emDone :: ' ' :: D) ∧
    ∀ m : Char, checkboxHeadDone ('-' :: ' ' :: '[' :: m :: ']' :: ' ' :: B) =
      true ↔ (m = ' ' ∨ m = '/' ∨ m = '!') := by
  constructor
  · have hr1 : replaceFirstCheckbox
        ('-' :: ' ' :: '[' :: '-' :: ']' :: ' ' :: B) =
        '-' :: ' ' :: '[' :: '-' :: ']' :: ' ' :: B := by
      apply replaceFirstCheckbox_nomatch
      rw [hasCheckboxMatch_cancelled_head]
      exact hno
    rw [completeTaskLine_eq, hr1]
    exact completeCore_shape '-' (by decide) (by decide) (by decide)
      B hB tags htags D hD
  · intro m
    rw [show checkboxHeadDone ('-' :: ' ' :: '[' :: m :: ']' :: ' ' :: B) =
        (decide (m = ' ') || decide (m = '/') || decide (m = '!')) from rfl]
    simp [or_assoc]

/-- Witness for C10 on a concrete cancelled line with one column tag. -/
theorem completeTask_cancelled_witness :
    completeTaskLine "2026-02-13".data ["#in-progress".data]
        "- [-] cancelled #task #in-progress".data =
      "- [-] cancelled #task ✅ 2026-02-13".data ∧
    checkboxHeadDone "- [-] cancelled #task #in-progress".data = false := by
  have h := completeTask_cancelled "cancelled #task #in-progress".data
    (by decide) (by decide) ["#in-progress".data] (by decide)
    "2026-02-13".data (by decide)
  constructor
  · have h1 := h.1
    rw [show ('-' :: ' ' :: '[' :: '-' :: ']' :: ' ' ::
        "cancelled #task #in-progress".data) =
        "- [-] cancelled #task #in-progress".data from rfl] at h1
    rw [h1]
    decide
  · have h2 := (h.2 '-').not
    simp only [show ('-' = ' ' ∨ '-' = '/' ∨ '-' = '!') ↔ False from
      by simp, iff_false] at h2
    simpa using h2

/-- Unfolding equation of `lexCmp` at two cons cells. -/
theorem lexCmp_cons_cons (a b : Char) (as bs : Str) :
    lexCmp (a :: as) (b :: bs) =
      if a = b then lexCmp as bs else if a < b then -1 else 1 := rfl

/-- Comparing with the empty string on the left never yields a
positive result. -/
theorem lexCmp_nil_le (z : Str) : lexCmp [] z ≤ 0 := by
  cases z with
  | nil => decide
  | cons c cs =>
    show (-1 : Int) ≤ 0
    decide

/-- `lexCmp` is antisymmetric in sign. -/
theorem lexCmp_swap : ∀ x y : Str, lexCmp x y = -lexCmp y x := by
  intro x
  induction x with
  | nil =>
    intro y
    cases y with
    | nil => decide
    | cons b bs =>
      show (-1 : Int) = -(1 : Int)
      decide
  | cons a as ih =>
    intro y
    cases y with
    | nil =>
      show (1 : Int) = -(-1 : Int)
      decide
    | cons b bs =>
      rw [lexCmp_cons_cons, lexCmp_cons_cons]
      by_cases hab : a = b
      · subst hab
        rw [if_pos rfl, if_pos rfl]
        exact ih bs
      · rw [if_neg hab, if_neg (Ne.symm hab)]
        by_cases h : a < b
        · rw [if_pos h, if_neg (not_lt.mpr h.le)]
        · have h2 : b < a := by
            rcases lt_trichotomy a b with h3 | h3 | h3
            · exact absurd h3 h
            · exact absurd h3 hab
            · exact h3
          rw [if_neg h, if_pos h2]
          decide

/-- `lexCmp` nonpositivity is transitive. -/
theorem lexCmp_trans :
    ∀ x y z : Str, lexCmp x y ≤ 0 → lexCmp y z ≤ 0 → lexCmp x z ≤ 0 := by
  intro x
  induction x with
  | nil => intro y z _ _; exact lexCmp_nil_le z
  | cons a as ih =>
    intro y z h1 h2
    cases y with
    | nil =>
      rw [show lexCmp (a :: as) [] = 1 from rfl] at h1
      omega
    | cons b bs =>
      cases z with
      | nil =>
        rw [show lexCmp (b :: bs) [] = 1 from rfl] at h2
        omega
      | cons c cs =>
        rw [lexCmp_cons_cons] at h1 h2 ⊢
        by_cases hab : a = b
        · subst hab
          rw [if_pos rfl] at h1
          by_cases hac : a = c
          · rw [if_pos hac] at h2
            rw [if_pos hac]
            exact ih bs cs h1 h2
          · rw [if_neg hac] at h2 ⊢
            have hlt : a < c := by
              by_contra h
              rw [if_neg h] at h2
              omega
            rw [if_pos hlt]
            omega
        · rw [if_neg hab] at h1
          have hab2 : a < b := by
            by_contra h
            rw [if_neg h] at h1
            omega
          by_cases hbc : b = c
          · have hac : a < c := hbc ▸ hab2
            rw [if_neg (ne_of_lt hac), if_pos hac]
            omega
          · rw [if_neg hbc] at h2
            have hbc2 : b < c := by
              by_contra h
              rw [if_neg h] at h2
              omega
            have hac : a < c := lt_trans hab2 hbc2
            rw [if_neg (ne_of_lt hac), if_pos hac]
            omega

/-- Nonpositivity of the done comparator is exactly the display order
of the done column. -/
theorem doneCmp_le_iff (a b : KiboTask) :
    doneCmp a b ≤ 0 ↔ doneOrder a b := by
  cases ha : hasDone a <;> cases hb : hasDone b <;>
    simp [doneCmp, doneOrder, ha, hb]

/-- The done comparator is total. -/
theorem doneCmp_total (a b : KiboTask) :
    doneCmp a b ≤ 0 ∨ doneCmp b a ≤ 0 := by
  cases ha : hasDone a <;> cases hb : hasDone b <;>
    simp [doneCmp, ha, hb]
  · have hs := lexCmp_swap (b.doneDate.getD []) (a.doneDate.getD [])
    omega

/-- The done comparator is transitive in nonpositivity. -/
theorem doneCmp_trans (a b c : KiboTask) (h1 : doneCmp a b ≤ 0)
    (h2 : doneCmp b c ≤ 0) : doneCmp a c ≤ 0 := by
  rw [doneCmp_le_iff] at h1 h2 ⊢
  refine ⟨fun hc => h1.1 (h2.1 hc), fun ha hc => ?_⟩
  have hb := h2.1 hc
  exact lexCmp_trans _ _ _ (h2.2 hb hc) (h1.2 ha hb)

/-- Unfolding equation of `List.lookup` at a cons cell. -/
theorem lookup_cons {β : Type} (k k2 : Str) (v2 : β)
    (rest : List (Str × β)) :
    List.lookup k ((k2, v2) :: rest) =
      if k == k2 then some v2 else List.lookup k rest := by
  cases h : k == k2 <;> simp [List.lookup, h]

/-- Unfolding equation of `setAssoc` at a cons cell. -/
theorem setAssoc_cons (k : Str) (v : List KiboTask) (k2 : Str)
    (v2 : List KiboTask) (rest : List (Str × List KiboTask)) :
    setAssoc k v ((k2, v2) :: rest) =
      if k2 = k then (k, v) :: rest else (k2, v2) :: setAssoc k v rest := rfl

/-- The key written by `setAssoc` is present afterwards. -/
theorem keys_setAssoc_self (k : Str) (v : List KiboTask) :
    ∀ m : List (Str × List KiboTask),
      k ∈ (setAssoc k v m).map Prod.fst := by
  intro m
  induction m with
  | nil => simp [setAssoc]
  | cons e rest ih =>
    rcases e with ⟨k2, v2⟩
    rw [setAssoc_cons]
    by_cases h : k2 = k
    · rw [if_pos h]
      simp
    · rw [if_neg h]
      simpa using Or.inr (by simpa using ih)

/-- `setAssoc` never removes a key. -/
theorem keys_setAssoc_mono (k k2 : Str) (v : List KiboTask) :
    ∀ m : List (Str × List KiboTask), k ∈ m.map Prod.fst →
      k ∈ (setAssoc k2 v m).map Prod.fst := by
  intro m
  induction m with
  | nil => intro h; simp at h
  | cons e rest ih =>
    rcases e with ⟨ek, ev⟩
    intro h
    rw [setAssoc_cons]
    simp only [List.map_cons, List.mem_cons] at h
    by_cases he : ek = k2
    · rw [if_pos he]
      rcases h with h | h
      · subst he
        simp [h]
      · simp [h]
    · rw [if_neg he]
      rcases h with h | h
      · simp [h]
      · simpa using Or.inr (by simpa using ih h)

/-- The column-initialization fold never removes a key. -/
theorem init_keys_mono (k : Str) :
    ∀ (cols : List ColumnConfig) (m0 : List (Str × List KiboTask)),
      k ∈ m0.map Prod.fst →
      k ∈ (cols.foldl (fun m c => setAssoc c.id [] m) m0).map Prod.fst := by
  intro cols
  induction cols with
  | nil => intro m0 h; exact h
  | cons c rest ih =>
    intro m0 h
    exact ih (setAssoc c.id [] m0) (keys_setAssoc_mono k c.id [] m0 h)

/-- After initialization, every configured column id is a key. -/
theorem init_keys (cols : List ColumnConfig) :
    ∀ (m0 : List (Str × List KiboTask)) (col : ColumnConfig),
      col ∈ cols →
      col.id ∈ (cols.foldl (fun m c => setAssoc c.id [] m) m0).map Prod.fst := by
  induction cols with
  | nil => intro m0 col h; simp at h
  | cons c rest ih =>
    intro m0 col h
    rcases List.mem_cons.mp h with h | h
    · subst h
      exact init_keys_mono col.id rest (setAssoc col.id [] m0)
        (keys_setAssoc_self col.id [] m0)
    · exact ih (setAssoc c.id [] m0) col h

/-- One bucket-filling step never removes a key. -/
theorem fillStep_keys (todayD : Int) (settings : KiboTasksSettings)
    (assigns : List (Str × Str)) (m : List (Str × List KiboTask))
    (t : KiboTask) (k : Str) (h : k ∈ m.map Prod.fst) :
    k ∈ (fillStep todayD settings assigns m t).map Prod.fst := by
  unfold fillStep
  split
  · exact h
  · split
    · exact h
    · split
      · exact h
      · split
        · exact h
        · exact keys_setAssoc_mono k _ _ m h

/-- The bucket-filling fold never removes a key. -/
theorem fill_keys (todayD : Int) (settings : KiboTasksSettings)
    (assigns : List (Str × Str)) :
    ∀ (tasks : List KiboTask) (m : List (Str × List KiboTask)) (k : Str),
      k ∈ m.map Prod.fst →
      k ∈ (fillBuckets todayD settings assigns tasks m).map Prod.fst := by
  intro tasks
  induction tasks with
  | nil => intro m k h; exact h
  | cons t ts ih =>
    intro m k h
    exact ih (fillStep todayD settings assigns m t) k
      (fillStep_keys todayD settings assigns m t k h)

/-- A present key makes `lookup` succeed. -/
theorem lookup_of_key_mem :
    ∀ (m : List (Str × List KiboTask)) (k : Str), k ∈ m.map Prod.fst →
      ∃ v, List.lookup k m = some v := by
  intro m
  induction m with
  | nil => intro k h; simp at h
  | cons e rest ih =>
    rcases e with ⟨k2, v2⟩
    intro k h
    by_cases hb : (k == k2) = true
    · exact ⟨v2, by rw [lookup_cons, if_pos hb]⟩
    · have hne : k ≠ k2 := fun he => hb (by simp [he])
      simp only [List.map_cons, List.mem_cons] at h
      rcases h with h | h
      · exact absurd h hne
      · obtain ⟨v, hv⟩ := ih k h
        exact ⟨v, by rw [lookup_cons, if_neg hb, hv]⟩

/-- `lookup` after the per-column sorting phase is the sorted, limited
image of `lookup` before it. -/
theorem sortBuckets_lookup (todayD : Int) (settings : KiboTasksSettings) :
    ∀ (m : List (Str × List KiboTask)) (k : Str),
      List.lookup k (sortBuckets todayD settings m) =
        (List.lookup k m).map (sortEntry todayD settings k) := by
  intro m
  induction m with
  | nil => intro k; rfl
  | cons e rest ih =>
    intro k
    rcases e with ⟨k2, v2⟩
    rw [show sortBuckets todayD settings ((k2, v2) :: rest) =
        (k2, sortEntry todayD settings k2 v2) ::
          sortBuckets todayD settings rest from rfl]
    by_cases hk : k = k2
    · subst hk
      rw [lookup_cons, lookup_cons, if_pos (by simp), if_pos (by simp)]
      rfl
    · have hb : ¬((k == k2) = true) := fun h => hk (by simpa using h)
      rw [lookup_cons, lookup_cons, if_neg hb, if_neg hb]
      exact ih k

/-- `sortEntry` at a done-type column: sort by the done comparator and
truncate to the column's limit (defaulting to the global done limit). -/
theorem sortEntry_done (todayD : Int) (settings : KiboTasksSettings)
    (k : Str) (col : ColumnConfig)
    (hfind : settings.columns.find? (fun c => c.id == k) = some col)
    (htype : col.type = ColumnType.done) (v : List KiboTask) :
    sortEntry todayD settings k v =
      (sortByCmp doneCmp v).take (col.limit.getD settings.doneLimit) := by
  unfold sortEntry
  rw [hfind]
  show (if col.type = ColumnType.todo then sortByCmp (todoCmp todayD) v
    else if col.type = ColumnType.backlog then sortByCmp prioCmp v
    else if col.type = ColumnType.done then
      (if (sortByCmp doneCmp v).length > col.limit.getD settings.doneLimit
       then (sortByCmp doneCmp v).take (col.limit.getD settings.doneLimit)
       else sortByCmp doneCmp v)
    else sortByCmp prioCmp v) = _
  rw [htype]
  rw [if_neg (by decide), if_neg (by decide), if_pos rfl]
  by_cases hlen :
      (sortByCmp doneCmp v).length > col.limit.getD settings.doneLimit
  · rw [if_pos hlen]
  · rw [if_neg hlen, List.take_of_length_le (by omega)]

/-- Unfolding of `getTasksByColumn` through its phases. -/
theorem getTasksByColumn_eq (todayD : Int) (settings : KiboTasksSettings)
    (tasks : List KiboTask) :
    getTasksByColumn todayD settings tasks =
      sortBuckets todayD settings
        (fillBuckets todayD settings
          (columnAssignments settings.columns tasks) tasks
          (settings.columns.foldl (fun m c => setAssoc c.id [] m) [])) := rfl

/-- C8.  In `getTasksByColumn`, a done-type column's display list is
the bucket of tasks assigned to it, sorted by the done comparator and
truncated to the first `col.limit` entries (defaulting to the global
`doneLimit`, which is 10 in `DEFAULT_SETTINGS`): looking the column up
yields exactly `(sortByCmp doneCmp bucket).take N` for the column's
bucket, that list is pairwise in display order (tasks with a done date
first, then done date descending), its length is `min N` the bucket
size, and it is a sub-permutation of the bucket — the store's task
list `tasks` is an input the function never alters. -/
theorem getTasksByColumn_done (todayD : Int) (settings : KiboTasksSettings)
    (tasks : List KiboTask) (col : ColumnConfig)
    (hfind : settings.columns.find? (fun c => c.id == col.id) = some col)
    (htype : col.type = ColumnType.done) :
    ∃ bucket : List KiboTask,
      List.lookup col.id (getTasksByColumn todayD settings tasks) =
        some ((sortByCmp doneCmp bucket).take
          (col.limit.getD settings.doneLimit)) ∧
      List.Pairwise doneOrder ((sortByCmp doneCmp bucket).take
        (col.limit.getD settings.doneLimit)) ∧
      ((sortByCmp doneCmp bucket).take
        (col.limit.getD settings.doneLimit)).length =
        min (col.limit.getD settings.doneLimit) bucket.length ∧
      ((sortByCmp doneCmp bucket).take
        (col.limit.getD settings.doneLimit)).Subperm bucket ∧
      DEFAULT_SETTINGS.doneLimit = 10 := by
  have hmem : col ∈ settings.columns := List.mem_of_find?_eq_some hfind
  have hkey0 : col.id ∈ (settings.columns.foldl
      (fun m c => setAssoc c.id [] m)
      ([] : List (Str × List KiboTask))).map Prod.fst :=
    init_keys settings.columns [] col hmem
  have hkey : col.id ∈ (fillBuckets todayD settings
      (columnAssignments settings.columns tasks) tasks
      (settings.columns.foldl (fun m c => setAssoc c.id [] m) [])).map
        Prod.fst :=
    fill_keys todayD settings (columnAssignments settings.columns tasks)
      tasks _ col.id hkey0
  obtain ⟨bucket, hbk⟩ := lookup_of_key_mem _ col.id hkey
  refine ⟨bucket, ?_, ?_, ?_, ?_, rfl⟩
  · rw [getTasksByColumn_eq, sortBuckets_lookup, hbk, Option.map_some',
      sortEntry_done todayD settings col.id col hfind htype]
  · have i1 : IsTotal KiboTask (fun a b => doneCmp a b ≤ 0) := ⟨doneCmp_total⟩
    have i2 : IsTrans KiboTask (fun a b => doneCmp a b ≤ 0) := ⟨doneCmp_trans⟩
    have hsorted : List.Sorted (fun a b => doneCmp a b ≤ 0)
        (sortByCmp doneCmp bucket) :=
      List.sorted_insertionSort (fun a b => doneCmp a b ≤ 0) bucket
    have hp : List.Pairwise doneOrder (sortByCmp doneCmp bucket) :=
      List.Pairwise.imp (fun h => (doneCmp_le_iff _ _).mp h) hsorted
    exact List.Pairwise.sublist (List.take_sublist _ _) hp
  · have hlp : (sortByCmp doneCmp bucket).length = bucket.length :=
      (List.perm_insertionSort (fun a b => doneCmp a b ≤ 0) bucket).length_eq
    rw [List.length_take, hlp]
  · have h1 : ((sortByCmp doneCmp bucket).take
        (col.limit.getD settings.doneLimit)).Subperm
        (sortByCmp doneCmp bucket) := (List.take_sublist _ _).subperm
    have h2 : (sortByCmp doneCmp bucket).Subperm bucket :=
      (List.perm_insertionSort (fun a b => doneCmp a b ≤ 0) bucket).subperm
    exact h1.trans h2

/-- Witness for C8 at the default settings' done column. -/
theorem getTasksByColumn_done_witness :
    ∃ bucket : List KiboTask,
      List.lookup "done".data (getTasksByColumn 0 DEFAULT_SETTINGS []) =
        some ((sortByCmp doneCmp bucket).take 10) ∧
      List.Pairwise doneOrder ((sortByCmp doneCmp bucket).take 10) ∧
      ((sortByCmp doneCmp bucket).take 10).length =
        min 10 bucket.length ∧
      ((sortByCmp doneCmp bucket).take 10).Subperm bucket ∧
      DEFAULT_SETTINGS.doneLimit = 10 :=
  getTasksByColumn_done 0 DEFAULT_SETTINGS []
    ⟨"done".data, "Done".data, Option.none, ColumnType.done,
      "#10B981".data, false, some 10⟩ (by decide) rfl

end Kibo
